import Mathlib

/-!
# Sparse-set entity-component store: registry, stores and views

A shallow embedding of `include/World.hpp`.

* `std::vector<T>` is a `List T`; `std::size_t` is `Nat` (counters are taken as
  unbounded naturals).
* `operator[]`, `back()` and `pop_back()` have undefined behaviour outside the
  vector's range.  Every operation that can reach such an access returns an
  `Option`; `none` stands for "the source performs an out-of-range access".
* `std::unordered_map<std::size_t, ISparseSet*>` is an association list keyed by
  the component id (`GetComponentID<C>()`); all component records live in one
  value type `V`, because the stores never inspect a component value.
* A `View` holds pointers to stores.  The embedding dereferences them in the
  world state in which the view was created: a view is used before the registry
  is mutated again.
-/

namespace ECS

/-- Entity handle: `class Entity { std::size_t id; std::size_t gen; }`. -/
structure Entity where
  id : Nat
  gen : Nat
deriving DecidableEq, Repr

/-- Source: `Entity::GetID`. -/
def Entity.GetID (e : Entity) : Nat := e.id

/-- Source: `template <typename C> class SparseSet`, its three vectors. -/
structure SparseSet (C : Type) where
  sparse : List Nat
  entities : List Entity
  components : List C
deriving DecidableEq, Repr

/-- Growing or shrinking `std::vector<std::size_t>::resize(n)`; new slots are
value-initialised to zero. -/
def vecResize (v : List Nat) (n : Nat) : List Nat :=
  v.take n ++ List.replicate (n - v.length) 0

/-- Source: `std::swap(v[i], v[j])`; `none` when an index is out of range. -/
def vecSwap {α : Type} (v : List α) (i j : Nat) : Option (List α) :=
  match v[i]?, v[j]? with
  | some a, some b => some ((v.set i b).set j a)
  | _, _ => none

namespace SparseSet

variable {C : Type}

/-- Source: `SparseSet() = default`. -/
def empty : SparseSet C := { sparse := [], entities := [], components := [] }

/-- Source: `SparseSet::Add`. After the resize `idx` is in range, so the write
`sparse[idx] = entities.size()` cannot fail. -/
def Add (s : SparseSet C) (entity : Entity) (component : C) : SparseSet C :=
  let idx := entity.GetID
  let sparse1 := if idx ≥ s.sparse.length then vecResize s.sparse (idx + 1) else s.sparse
  { sparse := sparse1.set idx s.entities.length
    entities := s.entities ++ [entity]
    components := s.components ++ [component] }

/-- Source: the two `pop_back()` calls that end `SparseSet::Remove`; `none` when
one of the vectors is empty. -/
def popBack (s : SparseSet C) : Option (SparseSet C) :=
  if s.entities.length = 0 ∨ s.components.length = 0 then none
  else some { sparse := s.sparse
              entities := s.entities.dropLast
              components := s.components.dropLast }

/-- Source: `SparseSet::Remove`. `entities.size() - 1` is computed on naturals;
when `entities` is empty the source ends in an out-of-range access on either
branch (`back()` or `pop_back()` of an empty vector), and so does the model. -/
def Remove (s : SparseSet C) (entity : Entity) : Option (SparseSet C) :=
  match s.sparse[entity.GetID]? with
  | none => none
  | some idx =>
    if idx ≠ s.entities.length - 1 then
      match vecSwap s.entities idx (s.entities.length - 1),
            vecSwap s.components idx (s.components.length - 1) with
      | some entities1, some components1 =>
        match entities1[idx]? with
        | none => none
        | some moved =>
          if moved.GetID < s.sparse.length then
            popBack { sparse := s.sparse.set moved.GetID idx
                      entities := entities1
                      components := components1 }
          else none
      | _, _ => none
    else popBack s

/-- Source: `SparseSet::Contains`. The conjunction short-circuits, so the reads
`sparse[idx]` and `entities[sparse[idx]]` happen only when `idx < sparse.size()`;
the second read is not guarded by the size of `entities`. -/
def Contains (s : SparseSet C) (entity : Entity) : Option Bool :=
  let idx := entity.GetID
  if idx < s.sparse.length then
    match s.sparse[idx]? with
    | none => none
    | some p =>
      match s.entities[p]? with
      | none => none
      | some e => some (decide (e = entity))
  else some false

/-- Source: `SparseSet::Clear`. The `sparse` vector is not touched. -/
def Clear (s : SparseSet C) : SparseSet C :=
  { sparse := s.sparse, entities := [], components := [] }

/-- Source: `SparseSet::Get`, read through the returned reference. -/
def Get (s : SparseSet C) (entity : Entity) : Option C :=
  match s.sparse[entity.GetID]? with
  | none => none
  | some p => s.components[p]?

/-- Source: `sparseSet->Get(entity) = component`, the write through the reference
returned by `SparseSet::Get`. -/
def Assign (s : SparseSet C) (entity : Entity) (component : C) : Option (SparseSet C) :=
  match s.sparse[entity.GetID]? with
  | none => none
  | some p =>
    if p < s.components.length then
      some { sparse := s.sparse
             entities := s.entities
             components := s.components.set p component }
    else none

/-- Source: `SparseSet::GetEntities`. -/
def GetEntities (s : SparseSet C) : List Entity := s.entities

end SparseSet

/-- Source: `class World`, its three members. `sparseSetMap` pairs a component id
with the store it owns. -/
structure World (V : Type) where
  deadIDs : List Nat
  generations : List Nat
  sparseSetMap : List (Nat × SparseSet V)
deriving DecidableEq, Repr

/-- Source: `sparseSetMap.find(componentID)`, `none` for `end()`. -/
def mapFind {V : Type} : List (Nat × SparseSet V) → Nat → Option (SparseSet V)
  | [], _ => none
  | (k, s) :: rest, componentID => if k = componentID then some s else mapFind rest componentID

/-- Write through the pointer stored under `componentID`: the store found by
`mapFind` is replaced, the other pairs are untouched. -/
def mapStore {V : Type} : List (Nat × SparseSet V) → Nat → SparseSet V → List (Nat × SparseSet V)
  | [], _, _ => []
  | (k, s) :: rest, componentID, s1 =>
    if k = componentID then (k, s1) :: rest else (k, s) :: mapStore rest componentID s1

/-- Run a fallible store update over every pair of the map, as the range-for
loops over `sparseSetMap` do; the stores are independent of each other, so the
unspecified iteration order of the hash map does not matter. -/
def mapForEach {V : Type} (f : SparseSet V → Option (SparseSet V)) :
    List (Nat × SparseSet V) → Option (List (Nat × SparseSet V))
  | [] => some []
  | (k, s) :: rest =>
    match f s, mapForEach f rest with
    | some s1, some rest1 => some ((k, s1) :: rest1)
    | _, _ => none

namespace World

variable {V : Type}

/-- Source: `World() = default`. -/
def empty : World V := { deadIDs := [], generations := [], sparseSetMap := [] }

/-- Source: `World::IsEntityValid`. -/
def IsEntityValid (w : World V) (entity : Entity) : Bool :=
  let id := entity.GetID
  decide (id < w.generations.length) && decide (w.generations[id]? = some entity.gen)

/-- Source: `World::SpawnEntity`; `none` when `generations[id]` is read out of
range for the popped id. -/
def SpawnEntity (w : World V) : Option (Entity × World V) :=
  if w.deadIDs.length ≠ 0 then
    match w.deadIDs.getLast? with
    | none => none
    | some id =>
      match w.generations[id]? with
      | none => none
      | some g =>
        some ({ id := id, gen := g },
              { deadIDs := w.deadIDs.dropLast
                generations := w.generations
                sparseSetMap := w.sparseSetMap })
  else
    let id := w.generations.length
    some ({ id := id, gen := 0 },
          { deadIDs := w.deadIDs
            generations := w.generations ++ [0]
            sparseSetMap := w.sparseSetMap })

/-- Source: body of the loop in `World::DespawnEntity`,
`if (pair.second->Contains(entity)) pair.second->Remove(entity)`. -/
def despawnFrom (entity : Entity) (s : SparseSet V) : Option (SparseSet V) :=
  match s.Contains entity with
  | none => none
  | some true => s.Remove entity
  | some false => some s

/-- Source: `World::DespawnEntity`. -/
def DespawnEntity (w : World V) (entity : Entity) : Option (World V) :=
  if !w.IsEntityValid entity then some w
  else
    let id := entity.GetID
    match w.generations[id]? with
    | none => none
    | some g =>
      match mapForEach (despawnFrom entity) w.sparseSetMap with
      | none => none
      | some m =>
        some { deadIDs := w.deadIDs ++ [id]
               generations := w.generations.set id (g + 1)
               sparseSetMap := m }

/-- Source: `World::AddComponent<C>`; `componentID` is `GetComponentID<C>()`. -/
def AddComponent (w : World V) (componentID : Nat) (entity : Entity) (component : V) :
    Option (World V) :=
  if !w.IsEntityValid entity then some w
  else
    let found := mapFind w.sparseSetMap componentID
    let sparseSet := match found with
      | some s => s
      | none => SparseSet.empty
    let m := match found with
      | some _ => w.sparseSetMap
      | none => w.sparseSetMap ++ [(componentID, SparseSet.empty)]
    match sparseSet.Contains entity with
    | none => none
    | some true =>
      match sparseSet.Assign entity component with
      | none => none
      | some s1 =>
        some { deadIDs := w.deadIDs
               generations := w.generations
               sparseSetMap := mapStore m componentID s1 }
    | some false =>
      some { deadIDs := w.deadIDs
             generations := w.generations
             sparseSetMap := mapStore m componentID (sparseSet.Add entity component) }

/-- Source: `World::RemoveComponent<C>`. -/
def RemoveComponent (w : World V) (componentID : Nat) (entity : Entity) : Option (World V) :=
  if !w.IsEntityValid entity then some w
  else
    match mapFind w.sparseSetMap componentID with
    | none => some w
    | some sparseSet =>
      match sparseSet.Contains entity with
      | none => none
      | some true =>
        match sparseSet.Remove entity with
        | none => none
        | some s1 =>
          some { deadIDs := w.deadIDs
                 generations := w.generations
                 sparseSetMap := mapStore w.sparseSetMap componentID s1 }
      | some false => some w

/-- Source: `World::ClearEntities`. -/
def ClearEntities (w : World V) : World V :=
  { deadIDs := w.deadIDs
    generations := w.generations
    sparseSetMap := w.sparseSetMap.map (fun p => (p.1, p.2.Clear)) }

end World

/-- One call of a public registry mutator. `spawn` drops the returned handle:
the handle is a function of the state before the call. -/
inductive Op (V : Type) where
  | spawn : Op V
  | despawn (entity : Entity) : Op V
  | add (componentID : Nat) (entity : Entity) (component : V) : Op V
  | remove (componentID : Nat) (entity : Entity) : Op V
  | clear : Op V
deriving DecidableEq, Repr

namespace World

variable {V : Type}

/-- The world after one registry call, `none` when the call reads or writes out
of range. -/
def step (w : World V) : Op V → Option (World V)
  | Op.spawn => (w.SpawnEntity).map Prod.snd
  | Op.despawn entity => w.DespawnEntity entity
  | Op.add componentID entity component => w.AddComponent componentID entity component
  | Op.remove componentID entity => w.RemoveComponent componentID entity
  | Op.clear => some w.ClearEntities

/-- The world after a finite sequence of registry calls. -/
def run (w : World V) : List (Op V) → Option (World V)
  | [] => some w
  | op :: ops =>
    match w.step op with
    | none => none
    | some w1 => run w1 ops

/-- A world state some finite sequence of registry calls produces from the
default-constructed world. -/
def Reachable (w : World V) : Prop := ∃ ops : List (Op V), run World.empty ops = some w

end World

/-- Source: `template <typename... Cs> class View`. `sparseSetTuple` pairs each
bound component id with the store its pointer refers to; `smallestEntityVector`
is `none` for `nullptr`. -/
structure View (V : Type) where
  sparseSetTuple : List (Nat × SparseSet V)
  smallestEntityVector : Option (List Entity)
deriving DecidableEq, Repr

namespace View

variable {V : Type}

/-- Source: the lambda run for each bound store by the constructor of `View`. -/
def pickSmallest (smallest : Option (List Entity)) (sparseSets : SparseSet V) :
    Option (List Entity) :=
  match smallest with
  | none => some sparseSets.GetEntities
  | some v =>
    if sparseSets.GetEntities.length < v.length then some sparseSets.GetEntities else some v

/-- Source: `View::View`, the fold over the tuple in the order of the pack. -/
def construct (sparseSetTuple : List (Nat × SparseSet V)) : View V :=
  { sparseSetTuple := sparseSetTuple
    smallestEntityVector := sparseSetTuple.foldl (fun acc p => pickSmallest acc p.2) none }

/-- The pack `Cs...` of a view. -/
def boundTypes (view : View V) : List Nat := view.sparseSetTuple.map Prod.fst

/-- Source: `View::HasComponent<C>`; `std::get<SparseSet<C>*>` selects the store
bound for `C`. The source does not compile for a `C` outside the pack; the model
gives `none` there. -/
def HasComponent (view : View V) (componentID : Nat) (entity : Entity) : Option Bool :=
  match mapFind view.sparseSetTuple componentID with
  | none => none
  | some s => s.Contains entity

/-- Source: `View::GetComponent<C>`. The outer option is the out-of-range marker,
the inner one the returned pointer (`none` for `nullptr`). -/
def GetComponent (view : View V) (componentID : Nat) (entity : Entity) : Option (Option V) :=
  match view.HasComponent componentID entity with
  | none => none
  | some true =>
    match mapFind view.sparseSetTuple componentID with
    | none => none
    | some s =>
      match s.Get entity with
      | none => none
      | some c => some (some c)
  | some false => some none

/-- Source: the fold `((HasComponent<Cs>(entity)) && ...)`, evaluated left to
right and stopping at the first `false`. -/
def hasAll (view : View V) (entity : Entity) : List Nat → Option Bool
  | [] => some true
  | c :: cs =>
    match view.HasComponent c entity with
    | none => none
    | some true => hasAll view entity cs
    | some false => some false

/-- Source: the pack expansion `std::get<SparseSet<Cs>*>(sparseSetTuple)->Get(entity)...`. -/
def getAll (view : View V) (entity : Entity) : List Nat → Option (List V)
  | [] => some []
  | c :: cs =>
    match mapFind view.sparseSetTuple c with
    | none => none
    | some s =>
      match s.Get entity, getAll view entity cs with
      | some v, some vs => some (v :: vs)
      | _, _ => none

/-- Source: the loop of `View::Each` for a callback taking the components only.
The result lists the argument tuples of the callback invocations, in order. -/
def eachLoop (view : View V) : List Entity → Option (List (List V))
  | [] => some []
  | entity :: rest =>
    match hasAll view entity view.boundTypes with
    | none => none
    | some true =>
      match getAll view entity view.boundTypes, eachLoop view rest with
      | some args, some calls => some (args :: calls)
      | _, _ => none
    | some false => eachLoop view rest

/-- Source: `View::Each(F&&)` with `F` invocable on `Cs&...`; dereferencing a
null `smallestEntityVector` gives `none`. -/
def Each (view : View V) : Option (List (List V)) :=
  match view.smallestEntityVector with
  | none => none
  | some entities => eachLoop view entities

/-- Source: the loop of `View::Each` for a callback taking the entity and then
the components. -/
def eachEntityLoop (view : View V) : List Entity → Option (List (Entity × List V))
  | [] => some []
  | entity :: rest =>
    match hasAll view entity view.boundTypes with
    | none => none
    | some true =>
      match getAll view entity view.boundTypes, eachEntityLoop view rest with
      | some args, some calls => some ((entity, args) :: calls)
      | _, _ => none
    | some false => eachEntityLoop view rest

/-- Source: `View::Each(F&&)` with `F` invocable on `Entity, Cs&...`. -/
def EachEntity (view : View V) : Option (List (Entity × List V)) :=
  match view.smallestEntityVector with
  | none => none
  | some entities => eachEntityLoop view entities

end View

namespace World

variable {V : Type}

/-- Source: the tuple of `sparseSetMap.find(GetComponentID<Cs>())...` together
with the test `((its != itEnd) && ...)` of `World::CreateView`. -/
def findAll (m : List (Nat × SparseSet V)) : List Nat → Option (List (Nat × SparseSet V))
  | [] => some []
  | c :: cs =>
    match mapFind m c, findAll m cs with
    | some s, some rest => some ((c, s) :: rest)
    | _, _ => none

/-- Source: `World::CreateView<Cs...>`; `none` is `std::nullopt`. -/
def CreateView (w : World V) (Cs : List Nat) : Option (View V) :=
  (findAll w.sparseSetMap Cs).map View.construct

end World

/-! ## Generation table: validity and monotonicity -/

/-- The generation table `g2` extends `g1`: it is at least as long and no counter
has decreased. -/
def GenLe (g1 g2 : List Nat) : Prop :=
  ∀ (i x : Nat), g1[i]? = some x → ∃ y : Nat, g2[i]? = some y ∧ x ≤ y

/-- The handle is older than the current counter of its id. -/
def Stale (g : List Nat) (e : Entity) : Prop :=
  ∃ y : Nat, g[e.id]? = some y ∧ e.gen < y

/-! ## Concrete worlds used to instantiate the theorems -/

/-- Handle of the first entity a fresh world spawns. -/
def entA : Entity := { id := 0, gen := 0 }

/-- Handle of the second entity a fresh world spawns. -/
def entB : Entity := { id := 1, gen := 0 }

/-- Handle of the third entity a fresh world spawns. -/
def entC : Entity := { id := 2, gen := 0 }

/-- Handle returned when id 0 is recycled for the first time. -/
def entA1 : Entity := { id := 0, gen := 1 }

/-- World after two spawns on the default-constructed world. -/
def worldTwo : World Nat := { deadIDs := [], generations := [0, 0], sparseSetMap := [] }

/-- The world `worldTwo` after despawning `entA`. -/
def worldTwoDead : World Nat := { deadIDs := [0], generations := [1, 0], sparseSetMap := [] }

/-- Calls made on `worldTwoDead`: give `entB` a component of type 3, then clear. -/
def laterOps : List (Op Nat) := [Op.add 3 entB 7, Op.clear]

/-- The world `worldTwoDead` after `laterOps`. -/
def worldTwoLater : World Nat :=
  { deadIDs := [0], generations := [1, 0],
    sparseSetMap := [(3, { sparse := [0, 0], entities := [], components := [] })] }

/-- The world `worldTwoLater` after the spawn that recycles id 0. -/
def worldTwoReused : World Nat :=
  { deadIDs := [], generations := [1, 0],
    sparseSetMap := [(3, { sparse := [0, 0], entities := [], components := [] })] }

/-- Handle returned when id 1 is recycled for the first time. -/
def entB1 : Entity := { id := 1, gen := 1 }

/-- Calls that despawn both entities of a two-entity world, id 0 first. -/
def poolOps : List (Op Nat) := [Op.spawn, Op.spawn, Op.despawn entA, Op.despawn entB]

/-- The world after `poolOps`: the pool holds id 0 below id 1. -/
def worldPool : World Nat := { deadIDs := [0, 1], generations := [1, 1], sparseSetMap := [] }

/-- The world `worldPool` after one spawn. -/
def worldPoolSpawned : World Nat := { deadIDs := [0], generations := [1, 1], sparseSetMap := [] }

/-- World after one spawn on the default-constructed world. -/
def worldOne : World Nat := { deadIDs := [], generations := [0], sparseSetMap := [] }

/-- The world `worldOne` after despawning `entA`. -/
def worldOneDead : World Nat := { deadIDs := [0], generations := [1], sparseSetMap := [] }

/-- The world `worldOneDead` after the spawn that recycles id 0. -/
def worldOneReused : World Nat := { deadIDs := [], generations := [1], sparseSetMap := [] }

namespace SparseSet

variable {C : Type}

/-- The sparse-set invariant: the dense vectors have equal length, and every
dense position `p` holds an entity whose id is in range of `sparse` and is
mapped back to `p`. -/
def Inv (s : SparseSet C) : Prop :=
  s.entities.length = s.components.length ∧
  ∀ p : Nat, p < s.entities.length →
    (s.entities[p]?).bind (fun e => s.sparse[e.id]?) = some p

instance instDecidableInv [DecidableEq C] (s : SparseSet C) : Decidable s.Inv := by
  unfold Inv
  infer_instance

end SparseSet

/-- One call on a component store: `Add(entity, component)` or `Remove(entity)`. -/
inductive SetOp (C : Type) where
  | add (entity : Entity) (component : C) : SetOp C
  | remove (entity : Entity) : SetOp C
deriving DecidableEq, Repr

namespace SparseSet

variable {C : Type}

/-- The store after one call, `none` when the call accesses out of range. -/
def apply (s : SparseSet C) : SetOp C → Option (SparseSet C)
  | SetOp.add entity component => some (s.Add entity component)
  | SetOp.remove entity => s.Remove entity

/-- The store after a finite sequence of calls. -/
def applyAll (s : SparseSet C) : List (SetOp C) → Option (SparseSet C)
  | [] => some s
  | op :: ops =>
    match s.apply op with
    | none => none
    | some s1 => applyAll s1 ops

/-- The precondition the caller owes a call: `Add` needs an id no stored entity
has, `Remove` needs an entity the store contains. -/
def pre (s : SparseSet C) : SetOp C → Bool
  | SetOp.add entity _ => s.entities.all (fun x => decide (x.id ≠ entity.id))
  | SetOp.remove entity => decide (s.Contains entity = some true)

/-- Every call of the sequence meets its precondition in the store it is made on. -/
def respects (s : SparseSet C) : List (SetOp C) → Bool
  | [] => true
  | op :: ops =>
    s.pre op &&
      match s.apply op with
      | none => true
      | some s1 => respects s1 ops

/-- The component the store holds for `x`: `Get(x)` when `x` is in the dense
entity array, nothing otherwise. -/
def held (s : SparseSet C) (x : Entity) : Option C :=
  if x ∈ s.entities then s.Get x else none

end SparseSet

/-- Following the specification's words, the value last written for `x` by a
sequence of calls: `Add(x, v)` writes `v`, `Remove(x)` erases the entry, any other
call leaves it; `init` gives the values before the first call. -/
def lastWritten {C : Type} (init : Entity → Option C) : List (SetOp C) → Entity → Option C
  | [], x => init x
  | SetOp.add e v :: ops, x => lastWritten (fun y => if y = e then some v else init y) ops x
  | SetOp.remove e :: ops, x => lastWritten (fun y => if y = e then none else init y) ops x

/-- Store holding `entA` with component 5. -/
def storeOne : SparseSet Nat := { sparse := [0], entities := [entA], components := [5] }

/-- The store `storeOne` after `Remove(entA)`. -/
def storeOneRemoved : SparseSet Nat := { sparse := [0], entities := [], components := [] }

/-- Store holding `entA`, `entB`, `entC` with components 5, 7, 9. -/
def storeThree : SparseSet Nat :=
  { sparse := [0, 1, 2], entities := [entA, entB, entC], components := [5, 7, 9] }

/-- The store `storeThree` after `Remove(entC)`, the entity of the last dense
position. -/
def storeThreeRemoved : SparseSet Nat :=
  { sparse := [0, 1, 2], entities := [entA, entB], components := [5, 7] }

/-- The store `storeThree` after `Remove(entA)`: `entC` has moved to position 0. -/
def storeThreeSwapped : SparseSet Nat :=
  { sparse := [0, 1, 0], entities := [entC, entB], components := [9, 7] }

/-- Handle with id 3. -/
def entD : Entity := { id := 3, gen := 0 }

/-- Calls made on `storeThree`. -/
def storeOps : List (SetOp Nat) :=
  [SetOp.remove entA, SetOp.add entD 11, SetOp.remove entB, SetOp.add entA1 13]

/-- The store `storeThree` after `storeOps`. -/
def storeThreeLater : SparseSet Nat :=
  { sparse := [2, 1, 0, 1], entities := [entC, entD, entA1], components := [9, 11, 13] }

namespace World

variable {V : Type}

/-- The component ids that have a store in the registry. -/
def storeKeys (w : World V) : List Nat := w.sparseSetMap.map Prod.fst

/-- The call is `AddComponent` for component id `c` with a handle valid in `w`. -/
def addsValid (c : Nat) (w : World V) : Op V → Bool
  | Op.add componentID entity _ => decide (componentID = c) && w.IsEntityValid entity
  | _ => false

/-- Some call of the sequence, made from `w` on, is `AddComponent` for `c` with a
handle valid in the world it is made on. -/
def everAddsValid (c : Nat) : World V → List (Op V) → Bool
  | _, [] => false
  | w, op :: ops =>
    addsValid c w op ||
      match w.step op with
      | none => false
      | some w1 => everAddsValid c w1 ops

end World

/-- Handle that no spawn of the runs below has returned. -/
def entGhost : Entity := { id := 5, gen := 0 }

/-- Calls on the default-constructed world: component 0 is added with valid
handles, component 1 only with an invalid one; then a component is removed, an
entity despawned and the stores cleared. -/
def registryOps : List (Op Nat) :=
  [Op.spawn, Op.spawn, Op.add 0 entA 5, Op.add 0 entB 6, Op.add 1 entGhost 6,
   Op.remove 0 entA, Op.despawn entB, Op.clear]

/-- The world after `registryOps`. -/
def worldRegistry : World Nat :=
  { deadIDs := [1], generations := [0, 1],
    sparseSetMap := [(0, { sparse := [0, 0], entities := [], components := [] })] }

/-- Calls on the default-constructed world after which store 0 holds `entA` and a
stale sparse entry for `entB`, and store 1 holds `entB`. -/
def eachOps : List (Op Nat) :=
  [Op.spawn, Op.spawn, Op.add 0 entA 5, Op.add 0 entB 7, Op.remove 0 entB, Op.add 1 entB 9]

/-- Store 0 after `eachOps`. -/
def storeStale : SparseSet Nat := { sparse := [0, 1], entities := [entA], components := [5] }

/-- Store 1 after `eachOps`. -/
def storeOnlyB : SparseSet Nat := { sparse := [0, 0], entities := [entB], components := [9] }

/-- The world after `eachOps`. -/
def worldEach : World Nat :=
  { deadIDs := [], generations := [0, 0], sparseSetMap := [(0, storeStale), (1, storeOnlyB)] }

/-- The view `CreateView<1, 0>` of `worldEach`; store 1 drives the iteration. -/
def viewEach : View Nat :=
  { sparseSetTuple := [(1, storeOnlyB), (0, storeStale)], smallestEntityVector := some [entB] }

/-- Calls building the entities of the specification's example: `entA` has
components 0 and 1, `entB` only 0, `entC` only 1. -/
def exampleOps : List (Op Nat) :=
  [Op.spawn, Op.spawn, Op.spawn, Op.add 0 entA 5, Op.add 1 entA 6, Op.add 0 entB 7,
   Op.add 1 entC 9]

/-- The world after `exampleOps`. -/
def worldExample : World Nat :=
  { deadIDs := [], generations := [0, 0, 0],
    sparseSetMap :=
      [(0, { sparse := [0, 1], entities := [entA, entB], components := [5, 7] }),
       (1, { sparse := [0, 0, 1], entities := [entA, entC], components := [6, 9] })] }

/-- Source: `struct Position` and `struct Size` of `SimpleExample.cpp`, the two
component types of the example, as one value type. The `float` fields only store
and compare the literals 20, 13, 100 and 300, which are kept as integers. -/
inductive Component where
  | position (x y : Int) : Component
  | size (w h : Int) : Component
deriving DecidableEq, Repr

/-- Source: `MySystem`, the calls up to the creation of the view.
`GetComponentID<Position>()` is 0 and `GetComponentID<Size>()` is 1. -/
def systemOps : List (Op Component) :=
  [Op.spawn, Op.add 0 entA (Component.position 20 13), Op.add 1 entA (Component.size 100 300)]

/-- The world of `MySystem` when the view is created. -/
def worldSystem : World Component :=
  { deadIDs := [], generations := [0],
    sparseSetMap :=
      [(0, { sparse := [0], entities := [entA], components := [Component.position 20 13] }),
       (1, { sparse := [0], entities := [entA], components := [Component.size 100 300] })] }

/-- Calls after which `entA` is valid and store 0 is empty with a stale sparse
entry for it. -/
def readdOps : List (Op Nat) := [Op.spawn, Op.add 0 entA 5, Op.remove 0 entA]

/-- The world after `readdOps`. -/
def worldReadd : World Nat :=
  { deadIDs := [], generations := [0], sparseSetMap := [(0, storeOneRemoved)] }

/-- Calls giving `entA` a component of type 0. -/
def clearOps : List (Op Nat) := [Op.spawn, Op.add 0 entA 5]

/-- The world after `clearOps`. -/
def worldBeforeClear : World Nat :=
  { deadIDs := [], generations := [0], sparseSetMap := [(0, storeOne)] }

/-- The world `worldBeforeClear` after `ClearEntities`. -/
def worldCleared : World Nat :=
  { deadIDs := [], generations := [0], sparseSetMap := [(0, storeOneRemoved)] }

/-- The view `CreateView<0>` of `worldCleared`. -/
def viewCleared : View Nat :=
  { sparseSetTuple := [(0, storeOneRemoved)], smallestEntityVector := some [] }

/-- Calls in which every entity argument is the handle returned by the spawn
before it: spawn, add a component, despawn. -/
def respawnOps : List (Op Nat) := [Op.spawn, Op.add 0 entA 5, Op.despawn entA]

/-- The world after `respawnOps`. Store 0 is empty and keeps the sparse entry of
the despawned `entA`. -/
def worldRespawnDead : World Nat :=
  { deadIDs := [0], generations := [1], sparseSetMap := [(0, storeOneRemoved)] }

/-- The world `worldRespawnDead` after the spawn that returns `entA1`. -/
def worldRespawn : World Nat :=
  { deadIDs := [], generations := [1], sparseSetMap := [(0, storeOneRemoved)] }

/-- Calls after which store 0 holds `entA`, `entB` and a stale sparse entry for
`entC`, and store 1 holds `entB`, `entC`. -/
def orderOps : List (Op Nat) :=
  [Op.spawn, Op.spawn, Op.spawn, Op.add 0 entA 5, Op.add 0 entB 6, Op.add 0 entC 7,
   Op.remove 0 entC, Op.add 1 entB 8, Op.add 1 entC 9]

/-- Store 0 after `orderOps`. -/
def storeOrderA : SparseSet Nat :=
  { sparse := [0, 1, 2], entities := [entA, entB], components := [5, 6] }

/-- Store 1 after `orderOps`. -/
def storeOrderB : SparseSet Nat :=
  { sparse := [0, 0, 1], entities := [entB, entC], components := [8, 9] }

/-- The world after `orderOps`. -/
def worldOrder : World Nat :=
  { deadIDs := [], generations := [0, 0, 0],
    sparseSetMap := [(0, storeOrderA), (1, storeOrderB)] }

/-- The view `CreateView<1, 0>` of `worldOrder`; store 1 drives the iteration. -/
def viewOrder : View Nat :=
  { sparseSetTuple := [(1, storeOrderB), (0, storeOrderA)],
    smallestEntityVector := some [entB, entC] }

namespace World

variable {V : Type}

/-- Every id in the dead-id pool indexes the generation table. -/
def PoolOk (w : World V) : Prop := ∀ id : Nat, id ∈ w.deadIDs → id < w.generations.length

instance instDecidablePoolOk (w : World V) : Decidable w.PoolOk := by
  unfold PoolOk
  infer_instance

end World

/-- Bound stores of sizes 2, 1, 3, 1 in the order of the requested types. -/
def tupleSizes : List (Nat × SparseSet Nat) :=
  [(0, storeOrderA), (1, storeOne), (2, storeThree), (3, storeOnlyB)]

namespace World

variable {V : Type}

/-- Every store of the registry satisfies the sparse-set invariant and holds only
handles that `IsEntityValid` accepts. -/
def StoresOk (w : World V) : Prop :=
  ∀ p : Nat × SparseSet V, p ∈ w.sparseSetMap →
    p.2.Inv ∧ ∀ x : Entity, x ∈ p.2.entities → w.IsEntityValid x = true

instance instDecidableStoresOk [DecidableEq V] (w : World V) : Decidable w.StoresOk := by
  unfold StoresOk
  infer_instance

end World

/-- The world `worldExample` after despawning `entB`. -/
def worldExampleDead : World Nat :=
  { deadIDs := [1], generations := [0, 1, 0],
    sparseSetMap :=
      [(0, storeStale),
       (1, { sparse := [0, 0, 1], entities := [entA, entC], components := [6, 9] })] }

/-- Calls made on `worldExampleDead`: the spawn recycles id 1 as `entB1`, which
then gets a component of type 1. -/
def recycleOps : List (Op Nat) := [Op.spawn, Op.add 1 entB1 4]

/-- Store 1 after `recycleOps`. -/
def storeRecycled : SparseSet Nat :=
  { sparse := [0, 2, 1], entities := [entA, entC, entB1], components := [6, 9, 4] }

/-- The world `worldExampleDead` after `recycleOps`. -/
def worldExampleLater : World Nat :=
  { deadIDs := [], generations := [0, 1, 0],
    sparseSetMap := [(0, storeStale), (1, storeRecycled)] }

/-- The entity argument of a registry call, if the call has one. -/
def Op.entityArg {V : Type} : Op V → Option Entity
  | Op.spawn => none
  | Op.despawn entity => some entity
  | Op.add _ entity _ => some entity
  | Op.remove _ entity => some entity
  | Op.clear => none

namespace World

variable {V : Type}

/-- One registry call on a world together with the log of the handles that
`SpawnEntity` has returned so far, oldest first. -/
def stepLog (w : World V) (returned : List Entity) (op : Op V) :
    Option (World V × List Entity) :=
  match op with
  | Op.spawn => (w.SpawnEntity).map (fun r => (r.2, returned ++ [r.1]))
  | Op.despawn entity => (w.DespawnEntity entity).map (fun w1 => (w1, returned))
  | Op.add componentID entity component =>
    (w.AddComponent componentID entity component).map (fun w1 => (w1, returned))
  | Op.remove componentID entity =>
    (w.RemoveComponent componentID entity).map (fun w1 => (w1, returned))
  | Op.clear => some (w.ClearEntities, returned)

/-- A finite sequence of registry calls with the log of returned handles. -/
def runLog (w : World V) (returned : List Entity) :
    List (Op V) → Option (World V × List Entity)
  | [] => some (w, returned)
  | op :: ops =>
    match stepLog w returned op with
    | none => none
    | some r => runLog r.1 r.2 ops

/-- Every entity argument of the sequence is a handle that `SpawnEntity` has
returned before the call is made. -/
def argsReturned (w : World V) (returned : List Entity) : List (Op V) → Bool
  | [] => true
  | op :: ops =>
    (match op.entityArg with
      | none => true
      | some entity => decide (entity ∈ returned)) &&
      match stepLog w returned op with
      | none => true
      | some r => argsReturned r.1 r.2 ops

/-- The invariant of a world with its log of returned handles: the stores are
consistent and hold logged handles only; the pool has no repeated id and its ids
index the table; the log has no repeated handle; no logged handle is newer than
the counter of its id, and a logged handle whose id is in the pool is invalid. -/
structure LogOk (w : World V) (returned : List Entity) : Prop where
  stores : w.StoresOk
  pool : w.PoolOk
  poolNodup : w.deadIDs.Nodup
  logNodup : returned.Nodup
  logLe : ∀ h : Entity, h ∈ returned →
    ∃ g : Nat, w.generations[h.id]? = some g ∧ h.gen ≤ g
  logDead : ∀ h : Entity, h ∈ returned → h.id ∈ w.deadIDs → w.IsEntityValid h = false
  stored : ∀ p : Nat × SparseSet V, p ∈ w.sparseSetMap →
    ∀ x : Entity, x ∈ p.2.entities → x ∈ returned

end World

/-- Calls whose entity arguments are returned handles: two spawns, components
for both, despawn of `entA`. -/
def scriptOps : List (Op Nat) :=
  [Op.spawn, Op.spawn, Op.add 0 entA 5, Op.add 0 entB 7, Op.despawn entA]

/-- The world after `scriptOps`: id 0 is in the pool and store 0 holds `entB`. -/
def worldScript : World Nat :=
  { deadIDs := [0], generations := [1, 0],
    sparseSetMap := [(0, { sparse := [0, 0], entities := [entB], components := [7] })] }

/-- The world `worldScript` after the spawn that recycles id 0. -/
def worldScriptSpawned : World Nat :=
  { deadIDs := [], generations := [1, 0],
    sparseSetMap := [(0, { sparse := [0, 0], entities := [entB], components := [7] })] }

/-- The store `storeThree` after `Clear`: the dense arrays are empty and the
sparse array is kept. -/
def storeThreeCleared : SparseSet Nat :=
  { sparse := [0, 1, 2], entities := [], components := [] }

/-! # Theorems -/

theorem GenLe.refl (g : List Nat) : GenLe g g :=
  fun _ x h => ⟨x, h, le_rfl⟩

theorem GenLe.trans {g1 g2 g3 : List Nat} (h12 : GenLe g1 g2) (h23 : GenLe g2 g3) :
    GenLe g1 g3 := by
  intro i x hx
  obtain ⟨y, hy, hxy⟩ := h12 i x hx
  obtain ⟨z, hz, hyz⟩ := h23 i y hy
  exact ⟨z, hz, hxy.trans hyz⟩

theorem GenLe.append (g : List Nat) (l : List Nat) : GenLe g (g ++ l) := by
  intro i x hx
  have hi : i < g.length := (List.getElem?_eq_some_iff.mp hx).1
  exact ⟨x, by rw [List.getElem?_append_left hi]; exact hx, le_rfl⟩

theorem GenLe.set_succ (g : List Nat) (id v : Nat) (h : g[id]? = some v) :
    GenLe g (g.set id (v + 1)) := by
  intro i x hx
  by_cases hi : id = i
  · subst hi
    have hlt : id < g.length := (List.getElem?_eq_some_iff.mp hx).1
    refine ⟨v + 1, by simp [List.getElem?_set, hlt], ?_⟩
    rw [h] at hx
    have : v = x := Option.some.inj hx
    omega
  · exact ⟨x, by rw [List.getElem?_set_ne hi]; exact hx, le_rfl⟩

theorem Stale.mono {g1 g2 : List Nat} {e : Entity} (h : Stale g1 e) (hle : GenLe g1 g2) :
    Stale g2 e := by
  obtain ⟨y, hy, hlt⟩ := h
  obtain ⟨z, hz, hyz⟩ := hle _ y hy
  exact ⟨z, hz, lt_of_lt_of_le hlt hyz⟩

namespace World

variable {V : Type}

theorem isEntityValid_iff (w : World V) (e : Entity) :
    w.IsEntityValid e = true ↔ w.generations[e.id]? = some e.gen := by
  unfold IsEntityValid Entity.GetID
  simp only [Bool.and_eq_true, decide_eq_true_eq]
  constructor
  · exact fun h => h.2
  · intro h
    exact ⟨(List.getElem?_eq_some_iff.mp h).1, h⟩

theorem not_valid_of_stale {w : World V} {e : Entity} (h : Stale w.generations e) :
    w.IsEntityValid e = false := by
  obtain ⟨y, hy, hlt⟩ := h
  cases hv : w.IsEntityValid e with
  | false => rfl
  | true =>
    rw [isEntityValid_iff, hy] at hv
    have : y = e.gen := Option.some.inj hv
    omega

theorem despawn_of_invalid {w : World V} {e : Entity} (h : w.IsEntityValid e = false) :
    w.DespawnEntity e = some w := by
  simp [DespawnEntity, h]

theorem despawn_of_valid {w w1 : World V} {e : Entity} (hv : w.IsEntityValid e = true)
    (hd : w.DespawnEntity e = some w1) :
    w1.deadIDs = w.deadIDs ++ [e.id] ∧ w1.generations = w.generations.set e.id (e.gen + 1) ∧
      mapForEach (despawnFrom e) w.sparseSetMap = some w1.sparseSetMap := by
  have hg := (isEntityValid_iff w e).mp hv
  simp only [DespawnEntity, hv, Entity.GetID, hg] at hd
  cases hm : mapForEach (despawnFrom e) w.sparseSetMap with
  | none => simp [hm] at hd
  | some m =>
    simp only [hm] at hd
    simp at hd
    subst hd
    exact ⟨rfl, rfl, rfl⟩

theorem spawn_spec {w w1 : World V} {e : Entity} (h : w.SpawnEntity = some (e, w1)) :
    w1.sparseSetMap = w.sparseSetMap ∧
      ((w.deadIDs = w1.deadIDs ++ [e.id] ∧ w1.generations = w.generations ∧
          w.generations[e.id]? = some e.gen) ∨
       (w.deadIDs = [] ∧ w1.deadIDs = [] ∧ e = { id := w.generations.length, gen := 0 } ∧
          w1.generations = w.generations ++ [0])) := by
  unfold SpawnEntity at h
  by_cases hd : w.deadIDs.length ≠ 0
  · rw [if_pos hd] at h
    cases hl : w.deadIDs.getLast? with
    | none => simp [hl] at h
    | some id =>
      cases hg : w.generations[id]? with
      | none => simp [hl, hg] at h
      | some g =>
        simp only [hl, hg, Option.some.injEq, Prod.mk.injEq] at h
        obtain ⟨he, hw⟩ := h
        subst he hw
        refine ⟨rfl, Or.inl ⟨?_, rfl, hg⟩⟩
        have := List.dropLast_append_getLast? id hl
        exact this.symm
  · rw [if_neg hd] at h
    have hnil : w.deadIDs = [] := by
      cases hq : w.deadIDs with
      | nil => rfl
      | cons a l => simp [hq] at hd
    simp only [Option.some.injEq, Prod.mk.injEq] at h
    obtain ⟨he, hw⟩ := h
    subst he hw
    exact ⟨rfl, Or.inr ⟨hnil, hnil, rfl, rfl⟩⟩

theorem spawn_genLe {w w1 : World V} {e : Entity} (h : w.SpawnEntity = some (e, w1)) :
    GenLe w.generations w1.generations := by
  rcases (spawn_spec h).2 with ⟨_, hg, _⟩ | ⟨_, _, _, hg⟩
  · rw [hg]; exact GenLe.refl _
  · rw [hg]; exact GenLe.append _ _

theorem spawn_valid {w w1 : World V} {e : Entity} (h : w.SpawnEntity = some (e, w1)) :
    w1.IsEntityValid e = true := by
  rw [isEntityValid_iff]
  rcases (spawn_spec h).2 with ⟨_, hg, hx⟩ | ⟨_, _, he, hg⟩
  · rw [hg]; exact hx
  · rw [hg, he]; simp

theorem despawn_genLe {w w1 : World V} {e : Entity} (h : w.DespawnEntity e = some w1) :
    GenLe w.generations w1.generations := by
  cases hv : w.IsEntityValid e with
  | false =>
    rw [despawn_of_invalid hv] at h
    cases h
    exact GenLe.refl _
  | true =>
    rw [(despawn_of_valid hv h).2.1]
    exact GenLe.set_succ _ _ _ ((isEntityValid_iff w e).mp hv)

theorem addComponent_frame {w w1 : World V} {c : Nat} {e : Entity} {v : V}
    (h : w.AddComponent c e v = some w1) :
    w1.generations = w.generations ∧ w1.deadIDs = w.deadIDs := by
  unfold AddComponent at h
  split at h
  · cases h; exact ⟨rfl, rfl⟩
  · simp only at h
    split at h
    · cases h
    · split at h
      · cases h
      · cases h; exact ⟨rfl, rfl⟩
    · cases h; exact ⟨rfl, rfl⟩

theorem removeComponent_frame {w w1 : World V} {c : Nat} {e : Entity}
    (h : w.RemoveComponent c e = some w1) :
    w1.generations = w.generations ∧ w1.deadIDs = w.deadIDs := by
  unfold RemoveComponent at h
  split at h
  · cases h; exact ⟨rfl, rfl⟩
  · split at h
    · cases h; exact ⟨rfl, rfl⟩
    · split at h
      · cases h
      · split at h
        · cases h
        · cases h; exact ⟨rfl, rfl⟩
      · cases h; exact ⟨rfl, rfl⟩

theorem step_genLe {w w1 : World V} {op : Op V} (h : w.step op = some w1) :
    GenLe w.generations w1.generations := by
  cases op with
  | spawn =>
    simp only [step, Option.map_eq_some', Prod.exists, exists_eq_right] at h
    obtain ⟨e, he⟩ := h
    exact spawn_genLe he
  | despawn e => exact despawn_genLe h
  | add c e v => rw [(addComponent_frame h).1]; exact GenLe.refl _
  | remove c e => rw [(removeComponent_frame h).1]; exact GenLe.refl _
  | clear =>
    simp only [step, Option.some.injEq] at h
    subst h
    exact GenLe.refl _

theorem run_genLe {ops : List (Op V)} : ∀ {w w1 : World V}, w.run ops = some w1 →
    GenLe w.generations w1.generations := by
  induction ops with
  | nil =>
    intro w w1 h
    simp only [run, Option.some.injEq] at h
    subst h
    exact GenLe.refl _
  | cons op ops ih =>
    intro w w1 h
    simp only [run] at h
    cases hs : w.step op with
    | none => simp [hs] at h
    | some w2 =>
      simp only [hs] at h
      exact (step_genLe hs).trans (ih h)

theorem stale_after_despawn {w w1 : World V} {e : Entity} (hv : w.IsEntityValid e = true)
    (hd : w.DespawnEntity e = some w1) : Stale w1.generations e := by
  have hg := (isEntityValid_iff w e).mp hv
  have hlt : e.id < w.generations.length := (List.getElem?_eq_some_iff.mp hg).1
  refine ⟨e.gen + 1, ?_, Nat.lt_succ_self _⟩
  rw [(despawn_of_valid hv hd).2.1]
  simp [List.getElem?_set, hlt]

theorem spawn_of_stale {w w1 : World V} {e e1 : Entity} (hs : Stale w.generations e)
    (h : w.SpawnEntity = some (e1, w1)) (hid : e1.id = e.id) : e.gen < e1.gen := by
  obtain ⟨y, hy, hlt⟩ := hs
  rcases (spawn_spec h).2 with ⟨_, _, hx⟩ | ⟨_, _, he, _⟩
  · rw [hid, hy] at hx
    have : y = e1.gen := Option.some.inj hx
    omega
  · have hlen : e.id < w.generations.length := (List.getElem?_eq_some_iff.mp hy).1
    rw [he] at hid
    simp at hid
    omega

end World

/-! ## C1: a despawned handle stays invalid -/

/-- C1. If `e` is valid in `w` and `DespawnEntity(e)` yields `w1`, then `e` is
invalid in `w1` and in every world `w2` that a finite sequence of registry calls
produces from `w1`; when `SpawnEntity` on such a `w2` returns a handle with the
id of `e`, that handle has a different generation, is valid in the resulting
world, and `e` is still invalid there. -/
theorem despawn_invalid_forever {V : Type} (w w1 : World V) (e : Entity)
    (hv : w.IsEntityValid e = true) (hd : w.DespawnEntity e = some w1) :
    w1.IsEntityValid e = false ∧
    ∀ (ops : List (Op V)) (w2 : World V), w1.run ops = some w2 →
      w2.IsEntityValid e = false ∧
      ∀ (e1 : Entity) (w3 : World V), w2.SpawnEntity = some (e1, w3) → e1.id = e.id →
        e1.gen ≠ e.gen ∧ w3.IsEntityValid e1 = true ∧ w3.IsEntityValid e = false := by
  have hs1 := World.stale_after_despawn hv hd
  refine ⟨World.not_valid_of_stale hs1, ?_⟩
  intro ops w2 hrun
  have hs2 : Stale w2.generations e := hs1.mono (World.run_genLe hrun)
  refine ⟨World.not_valid_of_stale hs2, ?_⟩
  intro e1 w3 hsp hid
  have hlt := World.spawn_of_stale hs2 hsp hid
  exact ⟨by omega, World.spawn_valid hsp,
    World.not_valid_of_stale (hs2.mono (World.spawn_genLe hsp))⟩

/-- C1 at `worldTwo`: `entA` is despawned, two more calls follow, and the next
spawn recycles id 0 as `entA1`. -/
theorem despawn_invalid_forever_witness :
    (worldTwo.IsEntityValid entA = true ∧ worldTwo.DespawnEntity entA = some worldTwoDead ∧
      worldTwoDead.run laterOps = some worldTwoLater ∧
      worldTwoLater.SpawnEntity = some (entA1, worldTwoReused) ∧ entA1.id = entA.id) ∧
    worldTwoDead.IsEntityValid entA = false ∧ worldTwoLater.IsEntityValid entA = false ∧
    entA1.gen ≠ entA.gen ∧ worldTwoReused.IsEntityValid entA1 = true ∧
    worldTwoReused.IsEntityValid entA = false :=
  have h := despawn_invalid_forever worldTwo worldTwoDead entA (by decide) (by decide)
  have h2 := h.2 laterOps worldTwoLater (by decide)
  ⟨⟨by decide, by decide, by decide, by decide, rfl⟩, h.1, h2.1,
    h2.2 entA1 worldTwoReused (by decide) rfl⟩

/-! ## C2: which id a spawn recycles -/

/-- C2 as stated fails. After spawning two entities and despawning id 0 and then
id 1, the pool holds ids 0 and 1, and `SpawnEntity` returns id 1, which is not
the lowest id in the pool. -/
theorem spawn_lowest_id_counterexample :
    World.run World.empty poolOps = some worldPool ∧
    worldPool.SpawnEntity = some (entB1, worldPoolSpawned) ∧
    0 ∈ worldPool.deadIDs ∧ 0 < entB1.id := by
  decide

/-- C2, amended. (1) When the pool is `ids ++ [id]` and `id` indexes the
generation table, `SpawnEntity` returns `id`, the id pushed last, paired with its
current counter, and pops it. (2) A handle returned by a later `SpawnEntity` with
the id of a despawned handle `e` has a generation strictly greater than that of
`e`. (3) Spawn, despawn, spawn returns the first handle's id with its generation
plus one. -/
theorem spawn_recycles_last_pushed {V : Type} (w : World V) :
    (∀ (ids : List Nat) (id g : Nat), w.deadIDs = ids ++ [id] → w.generations[id]? = some g →
      w.SpawnEntity = some ({ id := id, gen := g },
        { deadIDs := ids, generations := w.generations, sparseSetMap := w.sparseSetMap })) ∧
    (∀ (e e1 : Entity) (w1 w2 w3 : World V) (ops : List (Op V)),
      w.IsEntityValid e = true → w.DespawnEntity e = some w1 → w1.run ops = some w2 →
      w2.SpawnEntity = some (e1, w3) → e1.id = e.id → e.gen < e1.gen) ∧
    (∀ (e : Entity) (w1 w2 : World V),
      w.SpawnEntity = some (e, w1) → w1.DespawnEntity e = some w2 →
      ∃ w3 : World V, w2.SpawnEntity = some ({ id := e.id, gen := e.gen + 1 }, w3)) := by
  refine ⟨?_, ?_, ?_⟩
  · intro ids id g hd hg
    simp [World.SpawnEntity, hd, hg]
  · intro e e1 w1 w2 w3 ops hv hd hrun hsp hid
    exact World.spawn_of_stale ((World.stale_after_despawn hv hd).mono (World.run_genLe hrun))
      hsp hid
  · intro e w1 w2 hsp hd
    have hv := World.spawn_valid hsp
    obtain ⟨hdead, hgen, _⟩ := World.despawn_of_valid hv hd
    have hg := (World.isEntityValid_iff w1 e).mp hv
    have hlt : e.id < w1.generations.length := (List.getElem?_eq_some_iff.mp hg).1
    refine ⟨{ deadIDs := w1.deadIDs, generations := w2.generations,
              sparseSetMap := w2.sparseSetMap }, ?_⟩
    simp [World.SpawnEntity, hdead, hgen, List.getElem?_set, hlt]

/-- C2 amended, at `worldPool` (pool `[0, 1]`), at the despawn of `entA` in
`worldTwo`, and at spawn, despawn, spawn on the default-constructed world. -/
theorem spawn_recycles_last_pushed_witness :
    (worldPool.deadIDs = [0] ++ [1] ∧ worldPool.generations[1]? = some 1 ∧
      worldPool.SpawnEntity = some (entB1, worldPoolSpawned)) ∧
    (worldTwo.IsEntityValid entA = true ∧ worldTwo.DespawnEntity entA = some worldTwoDead ∧
      worldTwoDead.run laterOps = some worldTwoLater ∧
      worldTwoLater.SpawnEntity = some (entA1, worldTwoReused) ∧ entA.gen < entA1.gen) ∧
    ((World.empty : World Nat).SpawnEntity = some (entA, worldOne) ∧
      worldOne.DespawnEntity entA = some worldOneDead ∧
      ∃ w3 : World Nat, worldOneDead.SpawnEntity = some ({ id := entA.id, gen := entA.gen + 1 }, w3)) :=
  ⟨⟨rfl, rfl, (spawn_recycles_last_pushed worldPool).1 [0] 1 1 rfl rfl⟩,
   ⟨by decide, by decide, by decide, by decide,
    (spawn_recycles_last_pushed worldTwo).2.1 entA entA1 worldTwoDead worldTwoLater worldTwoReused
      laterOps (by decide) (by decide) (by decide) (by decide) rfl⟩,
   ⟨by decide, by decide,
    (spawn_recycles_last_pushed (World.empty : World Nat)).2.2 entA worldOne worldOneDead
      (by decide) (by decide)⟩⟩

/-! ## The sparse set: pointwise descriptions of `Add` and `Remove` -/

namespace SparseSet

variable {C : Type}

theorem inv_iff (s : SparseSet C) :
    s.Inv ↔ s.entities.length = s.components.length ∧
      ∀ (p : Nat) (e : Entity), s.entities[p]? = some e → s.sparse[e.id]? = some p := by
  unfold Inv
  constructor
  · rintro ⟨hlen, h⟩
    refine ⟨hlen, ?_⟩
    intro p e he
    have hp : p < s.entities.length := (List.getElem?_eq_some_iff.mp he).1
    have := h p hp
    rw [he] at this
    simpa using this
  · rintro ⟨hlen, h⟩
    refine ⟨hlen, ?_⟩
    intro p hp
    obtain ⟨e, he⟩ : ∃ e, s.entities[p]? = some e :=
      ⟨s.entities[p], List.getElem?_eq_getElem hp⟩
    rw [he]
    simpa using h p e he

theorem Inv.length_eq {s : SparseSet C} (h : s.Inv) :
    s.entities.length = s.components.length := h.1

theorem Inv.sparse_at {s : SparseSet C} (h : s.Inv) {p : Nat} {e : Entity}
    (he : s.entities[p]? = some e) : s.sparse[e.id]? = some p :=
  ((inv_iff s).mp h).2 p e he

theorem Inv.pos_unique {s : SparseSet C} (h : s.Inv) {p q : Nat} {e x : Entity}
    (he : s.entities[p]? = some e) (hx : s.entities[q]? = some x) (hid : e.id = x.id) :
    p = q := by
  have h1 := h.sparse_at he
  have h2 := h.sparse_at hx
  rw [hid, h2] at h1
  exact (Option.some.inj h1).symm

theorem contains_eq_true_iff (s : SparseSet C) (e : Entity) :
    s.Contains e = some true ↔ ∃ p : Nat, s.sparse[e.id]? = some p ∧ s.entities[p]? = some e := by
  unfold Contains Entity.GetID
  dsimp only
  constructor
  · intro h
    by_cases hlt : e.id < s.sparse.length
    · rw [if_pos hlt] at h
      cases hp : s.sparse[e.id]? with
      | none => simp [hp] at h
      | some p =>
        cases hx : s.entities[p]? with
        | none => simp [hp, hx] at h
        | some x =>
          simp only [hp, hx, Option.some.injEq, decide_eq_true_eq] at h
          subst h
          exact ⟨p, rfl, hx⟩
    · rw [if_neg hlt] at h
      cases h
  · rintro ⟨p, hp, hx⟩
    have hlt : e.id < s.sparse.length := (List.getElem?_eq_some_iff.mp hp).1
    simp [hlt, hp, hx]

theorem Inv.contains_iff_mem {s : SparseSet C} (h : s.Inv) (e : Entity) :
    s.Contains e = some true ↔ e ∈ s.entities := by
  rw [contains_eq_true_iff]
  constructor
  · rintro ⟨p, _, hx⟩
    exact List.getElem?_mem hx
  · intro hm
    obtain ⟨p, hp⟩ := List.getElem?_of_mem hm
    exact ⟨p, h.sparse_at hp, hp⟩

theorem add_entities (s : SparseSet C) (e : Entity) (v : C) :
    (s.Add e v).entities = s.entities ++ [e] := rfl

theorem add_components (s : SparseSet C) (e : Entity) (v : C) :
    (s.Add e v).components = s.components ++ [v] := rfl

theorem add_sparse_self (s : SparseSet C) (e : Entity) (v : C) :
    (s.Add e v).sparse[e.id]? = some s.entities.length := by
  unfold Add Entity.GetID vecResize
  simp only
  split
  · rw [List.getElem?_set_self]
    simp
    omega
  · rw [List.getElem?_set_self]
    omega

theorem add_sparse_other (s : SparseSet C) (e : Entity) (v : C) {i p : Nat} (hi : i ≠ e.id)
    (hp : s.sparse[i]? = some p) : (s.Add e v).sparse[i]? = some p := by
  have hlt : i < s.sparse.length := (List.getElem?_eq_some_iff.mp hp).1
  unfold Add Entity.GetID vecResize
  simp only
  rw [List.getElem?_set_ne (Ne.symm hi)]
  split
  · rw [List.getElem?_append_left (by simp; omega), List.getElem?_take_of_lt (by omega)]
    exact hp
  · exact hp

theorem vecSwap_of_some {α : Type} {v : List α} {i j : Nat} {a b : α}
    (ha : v[i]? = some a) (hb : v[j]? = some b) :
    vecSwap v i j = some ((v.set i b).set j a) := by
  simp [vecSwap, ha, hb]

/-- Pointwise description of `Remove` on a store satisfying the invariant, for an
entity `e` stored at dense position `p`; `l` is the entity of the last dense
position, which takes the place of `e`. -/
theorem Inv.remove_spec {s : SparseSet C} (h : s.Inv) {p : Nat} {e : Entity}
    (he : s.entities[p]? = some e) :
    ∃ (s1 : SparseSet C) (l : Entity),
      s.Remove e = some s1 ∧ s.entities[s.entities.length - 1]? = some l ∧
      s1.entities.length = s.entities.length - 1 ∧
      s1.components.length = s.entities.length - 1 ∧
      (∀ i : Nat, s1.sparse[i]? = if i = l.id then some p else s.sparse[i]?) ∧
      (∀ q : Nat, q < s.entities.length - 1 →
        s1.entities[q]? = if q = p then some l else s.entities[q]?) ∧
      (∀ q : Nat, q < s.entities.length - 1 →
        s1.components[q]? =
          if q = p then s.components[s.entities.length - 1]? else s.components[q]?) := by
  have hlen := h.length_eq
  have hp : p < s.entities.length := (List.getElem?_eq_some_iff.mp he).1
  have hsp := h.sparse_at he
  obtain ⟨l, hl⟩ : ∃ l, s.entities[s.entities.length - 1]? = some l :=
    ⟨s.entities[s.entities.length - 1], List.getElem?_eq_getElem (by omega)⟩
  have hsl := h.sparse_at hl
  have hlid : l.id < s.sparse.length := (List.getElem?_eq_some_iff.mp hsl).1
  obtain ⟨cp, hcp⟩ : ∃ c, s.components[p]? = some c :=
    ⟨s.components[p], List.getElem?_eq_getElem (by omega)⟩
  obtain ⟨cl, hcl⟩ : ∃ c, s.components[s.components.length - 1]? = some c :=
    ⟨s.components[s.components.length - 1], List.getElem?_eq_getElem (by omega)⟩
  by_cases hlast : p = s.entities.length - 1
  · -- `e` sits at the last dense position: only the two `pop_back` calls run
    have hel : l = e := by
      rw [← hlast, he] at hl
      exact (Option.some.inj hl).symm
    refine ⟨{ sparse := s.sparse, entities := s.entities.dropLast,
              components := s.components.dropLast }, l, ?_, hl, ?_, ?_, ?_, ?_, ?_⟩
    · have hne1 : ¬ (s.entities.length = 0) := by omega
      have hne2 : ¬ (s.components.length = 0) := by omega
      simp [Remove, Entity.GetID, hsp, hlast, popBack, hne1, hne2]
    · simp
    · simp; omega
    · intro i
      by_cases hi : i = l.id
      · rw [if_pos hi, hi, hel]; exact hsp
      · rw [if_neg hi]
    · intro q hq
      have hqp : q ≠ p := by omega
      rw [if_neg hqp, List.getElem?_dropLast, if_pos hq]
    · intro q hq
      have hqp : q ≠ p := by omega
      rw [if_neg hqp, List.getElem?_dropLast, if_pos (by omega)]
  · -- `e` is swapped with the last entity before the two `pop_back` calls
    have hsw1 := vecSwap_of_some he hl
    have hsw2 := vecSwap_of_some hcp hcl
    have hmoved : ((s.entities.set p l).set (s.entities.length - 1) e)[p]? = some l := by
      rw [List.getElem?_set_ne (Ne.symm hlast), List.getElem?_set_self hp]
    refine ⟨{ sparse := s.sparse.set l.id p,
              entities := ((s.entities.set p l).set (s.entities.length - 1) e).dropLast,
              components :=
                ((s.components.set p cl).set (s.components.length - 1) cp).dropLast },
            l, ?_, hl, ?_, ?_, ?_, ?_, ?_⟩
    · have hne1 : ¬ (s.entities.length = 0) := by omega
      have hne2 : ¬ (s.components.length = 0) := by omega
      simp only [Remove, Entity.GetID, hsp, ne_eq, hlast, not_false_eq_true, if_true, hsw1,
        hsw2, hmoved, hlid, popBack, List.length_set, hne1, hne2, or_self, if_false]
    · simp
    · simp; omega
    · intro i
      rw [List.getElem?_set]
      by_cases hi : l.id = i
      · rw [if_pos hi, if_pos hlid, if_pos hi.symm]
      · rw [if_neg hi, if_neg (Ne.symm hi)]
    · intro q hq
      rw [List.getElem?_dropLast, if_pos (by simpa using hq),
        List.getElem?_set_ne (by omega), List.getElem?_set]
      by_cases hqp : q = p
      · rw [if_pos hqp.symm, if_pos hp, if_pos hqp]
      · rw [if_neg (Ne.symm hqp), if_neg hqp]
    · intro q hq
      rw [List.getElem?_dropLast, if_pos (by simp; omega),
        List.getElem?_set_ne (by omega), List.getElem?_set]
      by_cases hqp : q = p
      · rw [if_pos hqp.symm, if_pos (by omega), if_pos hqp, hlen, hcl]
      · rw [if_neg (Ne.symm hqp), if_neg hqp]

theorem inv_empty : (SparseSet.empty : SparseSet C).Inv := by
  rw [inv_iff]
  exact ⟨rfl, fun p e h => by simp [SparseSet.empty] at h⟩

theorem Inv.get_of_pos {s : SparseSet C} (h : s.Inv) {p : Nat} {x : Entity}
    (hx : s.entities[p]? = some x) : s.Get x = s.components[p]? := by
  simp [Get, Entity.GetID, h.sparse_at hx]

theorem Inv.get_isSome {s : SparseSet C} (h : s.Inv) {x : Entity} (hx : x ∈ s.entities) :
    ∃ c : C, s.Get x = some c := by
  obtain ⟨p, hp⟩ := List.getElem?_of_mem hx
  have hlt : p < s.entities.length := (List.getElem?_eq_some_iff.mp hp).1
  have hlt1 : p < s.components.length := by rw [← h.length_eq]; exact hlt
  rw [h.get_of_pos hp]
  exact ⟨s.components[p], List.getElem?_eq_getElem hlt1⟩

/-- What `Remove` does to a store satisfying the invariant: the invariant is
kept, exactly `e` leaves the dense entity array, and every other entity keeps
its component. -/
theorem Inv.remove_facts {s s1 : SparseSet C} (h : s.Inv) {e : Entity} (he : e ∈ s.entities)
    (hr : s.Remove e = some s1) :
    s1.Inv ∧ (∀ x : Entity, x ∈ s1.entities ↔ (x ∈ s.entities ∧ x ≠ e)) ∧
      (∀ x : Entity, x ∈ s.entities → x ≠ e → s1.Get x = s.Get x) ∧
      s1.entities.length + 1 = s.entities.length := by
  obtain ⟨p, hp⟩ := List.getElem?_of_mem he
  have hplt : p < s.entities.length := (List.getElem?_eq_some_iff.mp hp).1
  obtain ⟨s2, l, hr2, hl, hlen1, hlen2, hsparse, hents, hcomps⟩ := h.remove_spec hp
  rw [hr] at hr2
  cases hr2
  have hinv1 : s1.Inv := by
    rw [inv_iff]
    refine ⟨by rw [hlen1, hlen2], ?_⟩
    intro q x hx
    have hq : q < s.entities.length - 1 := by
      rw [← hlen1]; exact (List.getElem?_eq_some_iff.mp hx).1
    rw [hents q hq] at hx
    rw [hsparse]
    by_cases hqp : q = p
    · rw [if_pos hqp] at hx
      cases hx
      rw [if_pos rfl, hqp]
    · rw [if_neg hqp] at hx
      have hne : x.id ≠ l.id := by
        intro hid
        have := h.pos_unique hx hl hid
        omega
      rw [if_neg hne]
      exact h.sparse_at hx
  refine ⟨hinv1, ?_, ?_, by omega⟩
  · intro x
    constructor
    · intro hx
      obtain ⟨q, hq⟩ := List.getElem?_of_mem hx
      have hqlt : q < s.entities.length - 1 := by
        rw [← hlen1]; exact (List.getElem?_eq_some_iff.mp hq).1
      rw [hents q hqlt] at hq
      by_cases hqp : q = p
      · rw [if_pos hqp] at hq
        cases hq
        refine ⟨List.getElem?_mem hl, ?_⟩
        intro hxe
        have := h.pos_unique hl hp (by rw [hxe])
        omega
      · rw [if_neg hqp] at hq
        refine ⟨List.getElem?_mem hq, ?_⟩
        intro hxe
        exact hqp (h.pos_unique hq hp (by rw [hxe]))
    · rintro ⟨hx, hxe⟩
      obtain ⟨q, hq⟩ := List.getElem?_of_mem hx
      have hqlt : q < s.entities.length := (List.getElem?_eq_some_iff.mp hq).1
      have hqp : q ≠ p := by
        intro hqp
        rw [hqp, hp] at hq
        exact hxe (Option.some.inj hq).symm
      by_cases hql : q = s.entities.length - 1
      · rw [hql, hl] at hq
        cases hq
        have hp1 : p < s.entities.length - 1 := by omega
        have := hents p hp1
        rw [if_pos rfl] at this
        exact List.getElem?_mem this
      · have hq1 : q < s.entities.length - 1 := by omega
        have := hents q hq1
        rw [if_neg hqp, hq] at this
        exact List.getElem?_mem this
  · intro x hx hxe
    obtain ⟨q, hq⟩ := List.getElem?_of_mem hx
    have hqlt : q < s.entities.length := (List.getElem?_eq_some_iff.mp hq).1
    have hqp : q ≠ p := by
      intro hqp
      rw [hqp, hp] at hq
      exact hxe (Option.some.inj hq).symm
    rw [h.get_of_pos hq]
    by_cases hql : q = s.entities.length - 1
    · rw [hql, hl] at hq
      cases hq
      have hp1 : p < s.entities.length - 1 := by omega
      have h1 := hents p hp1
      rw [if_pos rfl] at h1
      rw [hinv1.get_of_pos h1, hcomps p hp1, if_pos rfl, hql]
    · have hq1 : q < s.entities.length - 1 := by omega
      have h1 := hents q hq1
      rw [if_neg hqp, hq] at h1
      rw [hinv1.get_of_pos h1, hcomps q hq1, if_neg hqp]

/-- `Remove` returns on a store satisfying the invariant that holds `e`. -/
theorem Inv.remove_isSome {s : SparseSet C} (h : s.Inv) {e : Entity} (he : e ∈ s.entities) :
    ∃ s1 : SparseSet C, s.Remove e = some s1 := by
  obtain ⟨p, hp⟩ := List.getElem?_of_mem he
  obtain ⟨s1, _, hr, _⟩ := h.remove_spec hp
  exact ⟨s1, hr⟩

/-- What `Add` does to a store satisfying the invariant when no stored entity
has the id of `e`. -/
theorem Inv.add_facts {s : SparseSet C} (h : s.Inv) {e : Entity} (v : C)
    (hfresh : ∀ x : Entity, x ∈ s.entities → x.id ≠ e.id) :
    (s.Add e v).Inv ∧ (s.Add e v).Get e = some v ∧
      (∀ x : Entity, x ∈ s.entities → (s.Add e v).Get x = s.Get x) := by
  have hinv1 : (s.Add e v).Inv := by
    rw [inv_iff]
    refine ⟨by simp [add_entities, add_components, h.length_eq], ?_⟩
    intro q x hx
    rw [add_entities, List.getElem?_append] at hx
    by_cases hq : q < s.entities.length
    · rw [if_pos hq] at hx
      exact add_sparse_other s e v (hfresh x (List.getElem?_mem hx)) (h.sparse_at hx)
    · rw [if_neg hq] at hx
      have hq0 : q - s.entities.length = 0 := by
        by_contra hne
        rw [List.getElem?_eq_none (by simp; omega)] at hx
        cases hx
      rw [hq0] at hx
      simp only [List.getElem?_cons_zero, Option.some.injEq] at hx
      subst hx
      rw [add_sparse_self]
      congr 1
      omega
  have hlast : (s.Add e v).entities[s.entities.length]? = some e := by
    rw [add_entities, List.getElem?_append_right (le_refl _)]
    simp
  refine ⟨hinv1, ?_, ?_⟩
  · rw [hinv1.get_of_pos hlast, add_components, h.length_eq,
      List.getElem?_append_right (le_refl _)]
    simp
  · intro x hx
    obtain ⟨q, hq⟩ := List.getElem?_of_mem hx
    have hqlt : q < s.entities.length := (List.getElem?_eq_some_iff.mp hq).1
    have hq1 : (s.Add e v).entities[q]? = some x := by
      rw [add_entities, List.getElem?_append_left hqlt]
      exact hq
    rw [hinv1.get_of_pos hq1, h.get_of_pos hq, add_components,
      List.getElem?_append_left (by rw [← h.length_eq]; exact hqlt)]

end SparseSet

/-! ## C3: membership right after `Add` and `Remove` -/

namespace SparseSet

variable {C : Type}

/-- Right after `Add(e, v)` the membership test accepts `e`, on every store. -/
theorem contains_add (s : SparseSet C) (e : Entity) (v : C) :
    (s.Add e v).Contains e = some true := by
  rw [contains_eq_true_iff]
  refine ⟨s.entities.length, add_sparse_self s e v, ?_⟩
  rw [add_entities, List.getElem?_append_right (le_refl _)]
  simp

theorem held_of_mem {s : SparseSet C} {x : Entity} (h : x ∈ s.entities) :
    s.held x = s.Get x := by
  simp [held, h]

theorem held_of_not_mem {s : SparseSet C} {x : Entity} (h : x ∉ s.entities) :
    s.held x = none := by
  simp [held, h]

theorem Inv.held_add {s : SparseSet C} (h : s.Inv) {e : Entity} (v : C)
    (hfresh : ∀ x : Entity, x ∈ s.entities → x.id ≠ e.id) (x : Entity) :
    (s.Add e v).held x = if x = e then some v else s.held x := by
  obtain ⟨_, hget, hframe⟩ := h.add_facts v hfresh
  by_cases hxe : x = e
  · subst hxe
    rw [if_pos rfl, held_of_mem (by simp [add_entities]), hget]
  · rw [if_neg hxe]
    by_cases hx : x ∈ s.entities
    · rw [held_of_mem hx, held_of_mem (by simp [add_entities, hx]), hframe x hx]
    · rw [held_of_not_mem hx, held_of_not_mem (by simp [add_entities, hx, hxe])]

theorem Inv.held_remove {s s1 : SparseSet C} (h : s.Inv) {e : Entity} (he : e ∈ s.entities)
    (hr : s.Remove e = some s1) (x : Entity) :
    s1.held x = if x = e then none else s.held x := by
  obtain ⟨_, hmem, hframe, _⟩ := h.remove_facts he hr
  by_cases hxe : x = e
  · subst hxe
    rw [if_pos rfl, held_of_not_mem (by rw [hmem]; simp)]
  · rw [if_neg hxe]
    by_cases hx : x ∈ s.entities
    · rw [held_of_mem hx, held_of_mem ((hmem x).mpr ⟨hx, hxe⟩), hframe x hx hxe]
    · rw [held_of_not_mem hx, held_of_not_mem (by rw [hmem]; simp [hx])]

/-- A sequence of calls that respects the preconditions runs to the end on a
store satisfying the invariant, keeps the invariant, and leaves every entity
with the value last written for it. -/
theorem Inv.applyAll_held {ops : List (SetOp C)} : ∀ {s : SparseSet C}, s.Inv →
    s.respects ops = true →
    ∃ s1 : SparseSet C, s.applyAll ops = some s1 ∧ s1.Inv ∧
      ∀ x : Entity, s1.held x = lastWritten s.held ops x := by
  induction ops with
  | nil =>
    intro s h _
    exact ⟨s, rfl, h, fun _ => rfl⟩
  | cons op ops ih =>
    intro s h hres
    cases op with
    | add e v =>
      simp only [respects, pre, apply, Bool.and_eq_true, List.all_eq_true,
        decide_eq_true_eq] at hres
      obtain ⟨hfresh, hrest⟩ := hres
      obtain ⟨s1, hrun, hinv1, hval⟩ := ih (h.add_facts v hfresh).1 hrest
      refine ⟨s1, by simp only [applyAll, apply]; exact hrun, hinv1, ?_⟩
      intro x
      rw [hval x]
      simp only [lastWritten]
      congr 1
      funext y
      exact h.held_add v hfresh y
    | remove e =>
      simp only [respects, pre, apply, Bool.and_eq_true, decide_eq_true_eq] at hres
      obtain ⟨hc, hrest⟩ := hres
      have he : e ∈ s.entities := (h.contains_iff_mem e).mp hc
      obtain ⟨s2, hr⟩ := h.remove_isSome he
      rw [hr] at hrest
      obtain ⟨s1, hrun, hinv1, hval⟩ := ih (h.remove_facts he hr).1 hrest
      refine ⟨s1, by simp only [applyAll, apply, hr]; exact hrun, hinv1, ?_⟩
      intro x
      rw [hval x]
      simp only [lastWritten]
      congr 1
      funext y
      exact h.held_remove he hr y

end SparseSet

/-- C3 at its failing inputs. `storeOne` holds only `entA`; `storeThree` holds
`entC` at the last of three dense positions. Both satisfy the invariant and
contain the entity; `Remove` returns, and the membership test that follows reads
`entities` at the position just popped, out of range, instead of returning
false. -/
theorem contains_after_remove_last_out_of_range :
    (storeOne.Inv ∧ storeOne.Contains entA = some true ∧
      storeOne.Remove entA = some storeOneRemoved ∧ storeOneRemoved.Contains entA = none) ∧
    (storeThree.Inv ∧ storeThree.Contains entC = some true ∧
      storeThree.Remove entC = some storeThreeRemoved ∧
      storeThreeRemoved.Contains entC = none) := by
  decide

/-! ## C4: other entities keep their values -/

/-- C4. On a store satisfying the invariant: (1) `Remove(e)` of a contained `e`
returns, and every other contained entity `e1` is still contained with the value
it had; (2) after `Add(e2, v)` for an id no stored entity has, every contained
entity is still contained with the value it had; (3) a sequence of `Add` and
`Remove` calls that respects the preconditions runs to the end, and `Get(x)` of
every entity `x` in the final dense array is the value last written for `x`. -/
theorem add_remove_keep_other_values {C : Type} (s : SparseSet C) (hinv : s.Inv) :
    (∀ e e1 : Entity, s.Contains e = some true → s.Contains e1 = some true → e1 ≠ e →
      ∃ (s1 : SparseSet C) (c : C), s.Remove e = some s1 ∧ s1.Contains e1 = some true ∧
        s.Get e1 = some c ∧ s1.Get e1 = some c) ∧
    (∀ (e2 e1 : Entity) (v : C), (∀ x : Entity, x ∈ s.entities → x.id ≠ e2.id) →
      s.Contains e1 = some true →
      ∃ c : C, (s.Add e2 v).Contains e1 = some true ∧ s.Get e1 = some c ∧
        (s.Add e2 v).Get e1 = some c) ∧
    (∀ ops : List (SetOp C), s.respects ops = true →
      ∃ s1 : SparseSet C, s.applyAll ops = some s1 ∧
        ∀ x : Entity, x ∈ s1.entities →
          ∃ c : C, s1.Get x = some c ∧ lastWritten s.held ops x = some c) := by
  refine ⟨?_, ?_, ?_⟩
  · intro e e1 he he1 hne
    have hm := (hinv.contains_iff_mem e).mp he
    have hm1 := (hinv.contains_iff_mem e1).mp he1
    obtain ⟨s1, hr⟩ := hinv.remove_isSome hm
    obtain ⟨hinv1, hmem, hframe, _⟩ := hinv.remove_facts hm hr
    obtain ⟨c, hc⟩ := hinv.get_isSome hm1
    exact ⟨s1, c, hr, (hinv1.contains_iff_mem e1).mpr ((hmem e1).mpr ⟨hm1, hne⟩), hc,
      by rw [hframe e1 hm1 hne, hc]⟩
  · intro e2 e1 v hfresh he1
    have hm1 := (hinv.contains_iff_mem e1).mp he1
    obtain ⟨hinv1, _, hframe⟩ := hinv.add_facts v hfresh
    obtain ⟨c, hc⟩ := hinv.get_isSome hm1
    refine ⟨c, (hinv1.contains_iff_mem e1).mpr ?_, hc, by rw [hframe e1 hm1, hc]⟩
    simp [SparseSet.add_entities, hm1]
  · intro ops hres
    obtain ⟨s1, hrun, hinv1, hval⟩ := hinv.applyAll_held hres
    refine ⟨s1, hrun, ?_⟩
    intro x hx
    obtain ⟨c, hc⟩ := hinv1.get_isSome hx
    refine ⟨c, hc, ?_⟩
    rw [← hval x, SparseSet.held_of_mem hx, hc]

/-- C4 at `storeThree`: `Remove(entA)` moves `entC` and keeps its value 9;
`Add(entD, 11)` keeps the value 7 of `entB`; after `storeOps` the entity `entA1`
holds 13, the value written by the last call. -/
theorem add_remove_keep_other_values_witness :
    (storeThree.Inv ∧ storeThree.Contains entA = some true ∧
      storeThree.Contains entC = some true ∧ entC ≠ entA ∧
      (∀ x : Entity, x ∈ storeThree.entities → x.id ≠ entD.id) ∧
      storeThree.Contains entB = some true ∧ storeThree.respects storeOps = true ∧
      entA1 ∈ storeThreeLater.entities) ∧
    (∃ (s1 : SparseSet Nat) (c : Nat), storeThree.Remove entA = some s1 ∧
      s1.Contains entC = some true ∧ storeThree.Get entC = some c ∧ s1.Get entC = some c) ∧
    (∃ c : Nat, (storeThree.Add entD 11).Contains entB = some true ∧
      storeThree.Get entB = some c ∧ (storeThree.Add entD 11).Get entB = some c) ∧
    (∃ s1 : SparseSet Nat, storeThree.applyAll storeOps = some s1 ∧
      ∀ x : Entity, x ∈ s1.entities →
        ∃ c : Nat, s1.Get x = some c ∧ lastWritten storeThree.held storeOps x = some c) :=
  have h := add_remove_keep_other_values storeThree (by decide)
  ⟨⟨by decide, by decide, by decide, by decide, by decide, by decide, by decide, by decide⟩,
   h.1 entA entC (by decide) (by decide) (by decide),
   h.2.1 entD entB 11 (by decide) (by decide),
   h.2.2 storeOps (by decide)⟩

/-! ## The store registry: which component ids have a store -/

theorem mapFind_eq_none_iff {V : Type} (m : List (Nat × SparseSet V)) (c : Nat) :
    mapFind m c = none ↔ c ∉ m.map Prod.fst := by
  induction m with
  | nil => simp [mapFind]
  | cons p m ih =>
    obtain ⟨k, s⟩ := p
    by_cases hk : k = c
    · simp [mapFind, hk]
    · simp [mapFind, hk, ih, Ne.symm hk]

theorem mapFind_isSome_iff {V : Type} (m : List (Nat × SparseSet V)) (c : Nat) :
    (mapFind m c).isSome = true ↔ c ∈ m.map Prod.fst := by
  rw [← not_iff_not, ← mapFind_eq_none_iff]
  cases mapFind m c <;> simp

theorem mapStore_keys {V : Type} (m : List (Nat × SparseSet V)) (c : Nat) (s : SparseSet V) :
    (mapStore m c s).map Prod.fst = m.map Prod.fst := by
  induction m with
  | nil => rfl
  | cons p m ih =>
    obtain ⟨k, s0⟩ := p
    by_cases hk : k = c
    · simp [mapStore, hk]
    · simp [mapStore, hk, ih]

theorem mapForEach_keys {V : Type} {f : SparseSet V → Option (SparseSet V)} :
    ∀ {m m1 : List (Nat × SparseSet V)}, mapForEach f m = some m1 →
      m1.map Prod.fst = m.map Prod.fst := by
  intro m
  induction m with
  | nil =>
    intro m1 h
    simp only [mapForEach, Option.some.injEq] at h
    subst h
    rfl
  | cons p m ih =>
    intro m1 h
    obtain ⟨k, s⟩ := p
    simp only [mapForEach] at h
    cases hf : f s with
    | none => simp [hf] at h
    | some s1 =>
      cases hr : mapForEach f m with
      | none => simp [hf, hr] at h
      | some r =>
        simp only [hf, hr, Option.some.injEq] at h
        subst h
        simp [ih hr]

namespace World

variable {V : Type}

theorem findAll_eq_none_iff (m : List (Nat × SparseSet V)) (Cs : List Nat) :
    findAll m Cs = none ↔ ∃ c : Nat, c ∈ Cs ∧ mapFind m c = none := by
  induction Cs with
  | nil => simp [findAll]
  | cons c Cs ih =>
    simp only [findAll, List.mem_cons, exists_eq_or_imp]
    cases hc : mapFind m c with
    | none => simp
    | some s =>
      cases hr : findAll m Cs with
      | none =>
        rw [hr] at ih
        simp only [true_iff] at ih
        simp [ih]
      | some r =>
        rw [hr] at ih
        simp only [false_iff, reduceCtorEq] at ih
        simp [ih]

/-- Which ids have a store after one registry call: those that had one, and the
id of an `AddComponent` call made with a valid handle. -/
theorem step_storeKeys {w w1 : World V} {op : Op V} (h : w.step op = some w1) (c : Nat) :
    c ∈ w1.storeKeys ↔ (c ∈ w.storeKeys ∨ addsValid c w op = true) := by
  cases op with
  | spawn =>
    simp only [step, Option.map_eq_some', Prod.exists, exists_eq_right] at h
    obtain ⟨e, he⟩ := h
    simp [storeKeys, (spawn_spec he).1, addsValid]
  | despawn e =>
    simp only [step] at h
    cases hv : w.IsEntityValid e with
    | false =>
      rw [despawn_of_invalid hv] at h
      cases h
      simp [addsValid]
    | true =>
      have := mapForEach_keys (despawn_of_valid hv h).2.2
      simp [storeKeys, this, addsValid]
  | add k e v =>
    simp only [step, AddComponent] at h
    cases hv : w.IsEntityValid e with
    | false =>
      simp only [hv, Bool.not_false, if_true, Option.some.injEq] at h
      subst h
      simp [addsValid, hv]
    | true =>
      simp only [hv, Bool.not_true, Bool.false_eq_true, if_false] at h
      have hkeys : w1.storeKeys =
          (match mapFind w.sparseSetMap k with
            | some _ => w.sparseSetMap
            | none => w.sparseSetMap ++ [(k, SparseSet.empty)]).map Prod.fst := by
        split at h
        · cases h
        · split at h
          · cases h
          · cases h
            simp only [storeKeys, mapStore_keys]
        · cases h
          simp only [storeKeys, mapStore_keys]
      rw [hkeys]
      simp only [addsValid, hv, Bool.and_true, decide_eq_true_eq, storeKeys]
      cases hf : mapFind w.sparseSetMap k with
      | none =>
        simp only [List.map_append, List.map_cons, List.map_nil, List.mem_append,
          List.mem_singleton]
        constructor
        · rintro (h1 | h1)
          · exact Or.inl h1
          · exact Or.inr h1.symm
        · rintro (h1 | h1)
          · exact Or.inl h1
          · exact Or.inr h1.symm
      | some s =>
        have hk : k ∈ w.sparseSetMap.map Prod.fst := by
          rw [← mapFind_isSome_iff, hf]; rfl
        constructor
        · exact fun h1 => Or.inl h1
        · rintro (h1 | h1)
          · exact h1
          · rw [← h1]; exact hk
  | remove k e =>
    simp only [step, RemoveComponent] at h
    have hkeys : w1.storeKeys = w.storeKeys := by
      split at h
      · cases h; rfl
      · split at h
        · cases h; rfl
        · split at h
          · cases h
          · split at h
            · cases h
            · cases h
              simp only [storeKeys, mapStore_keys]
          · cases h; rfl
    simp [hkeys, addsValid]
  | clear =>
    simp only [step, Option.some.injEq] at h
    subst h
    simp [storeKeys, ClearEntities, addsValid, Function.comp_def]

theorem run_storeKeys {ops : List (Op V)} : ∀ {w w1 : World V}, w.run ops = some w1 →
    ∀ c : Nat, c ∈ w1.storeKeys ↔ (c ∈ w.storeKeys ∨ everAddsValid c w ops = true) := by
  induction ops with
  | nil =>
    intro w w1 h c
    simp only [run, Option.some.injEq] at h
    subst h
    simp [everAddsValid]
  | cons op ops ih =>
    intro w w1 h c
    simp only [run] at h
    cases hs : w.step op with
    | none => simp [hs] at h
    | some w2 =>
      simp only [hs] at h
      rw [ih h c, step_storeKeys hs c]
      simp only [everAddsValid, hs, Bool.or_eq_true]
      tauto

end World

/-! ## C6: when `CreateView` returns no view -/

/-- C6. (1) `CreateView` returns no view exactly when some requested component id
has no store in the registry. (2) After a sequence of registry calls on the
default-constructed world, an id has a store exactly when one of the calls was
`AddComponent` for that id with a handle valid at that call. (3) One registry
call leaves an id with a store exactly when it had one before or the call is
`AddComponent` for that id with a valid handle: an invalid handle creates no
store, and no call deletes one. -/
theorem createView_none_iff_store_missing {V : Type} :
    (∀ (w : World V) (Cs : List Nat),
      w.CreateView Cs = none ↔ ∃ c : Nat, c ∈ Cs ∧ mapFind w.sparseSetMap c = none) ∧
    (∀ (ops : List (Op V)) (w : World V) (c : Nat), World.run World.empty ops = some w →
      ((mapFind w.sparseSetMap c).isSome = true ↔
        World.everAddsValid c (World.empty : World V) ops = true)) ∧
    (∀ (w w1 : World V) (op : Op V) (c : Nat), w.step op = some w1 →
      ((mapFind w1.sparseSetMap c).isSome = true ↔
        ((mapFind w.sparseSetMap c).isSome = true ∨ World.addsValid c w op = true))) := by
  refine ⟨?_, ?_, ?_⟩
  · intro w Cs
    rw [← World.findAll_eq_none_iff]
    simp [World.CreateView]
  · intro ops w c hrun
    rw [mapFind_isSome_iff]
    have := World.run_storeKeys hrun c
    simpa [World.storeKeys, World.empty] using this
  · intro w w1 op c hstep
    rw [mapFind_isSome_iff, mapFind_isSome_iff]
    exact World.step_storeKeys hstep c

/-- C6 at `registryOps`: component 0 has a store and component 1 has none, so a
view over 0 and 1 is refused. -/
theorem createView_none_iff_store_missing_witness :
    (World.run World.empty registryOps = some worldRegistry ∧
      worldRegistry.step (Op.add 1 entGhost 6) = some worldRegistry) ∧
    (worldRegistry.CreateView [0, 1] = none ↔
      ∃ c : Nat, c ∈ [0, 1] ∧ mapFind worldRegistry.sparseSetMap c = none) ∧
    ((mapFind worldRegistry.sparseSetMap 0).isSome = true ↔
      World.everAddsValid 0 (World.empty : World Nat) registryOps = true) ∧
    ((mapFind worldRegistry.sparseSetMap 1).isSome = true ↔
      ((mapFind worldRegistry.sparseSetMap 1).isSome = true ∨
        World.addsValid 1 worldRegistry (Op.add 1 entGhost 6) = true)) :=
  have h := @createView_none_iff_store_missing Nat
  ⟨⟨by decide, by decide⟩, h.1 worldRegistry [0, 1],
   h.2.1 registryOps worldRegistry 0 (by decide),
   h.2.2 worldRegistry worldRegistry (Op.add 1 entGhost 6) 1 (by decide)⟩

/-! ## C5, C7, C8: views on reachable worlds -/

/-- C5 at its failing input. The world `worldEach` is reached by `eachOps`;
`entB` is not in the dense array of store 0, yet for the view over component ids
1 and 0 the membership test of `entB` in store 0 reads `entities[1]` of a
one-element vector, so both `Each` overloads run out of range instead of
skipping `entB`. On the specification's example world the view over ids 0 and 1
calls back exactly for `entA`. -/
theorem each_out_of_range_on_reachable_world :
    (World.run World.empty eachOps = some worldEach ∧
      worldEach.CreateView [1, 0] = some viewEach ∧ entB ∉ storeStale.entities ∧
      viewEach.HasComponent 0 entB = none ∧ viewEach.Each = none ∧
      viewEach.EachEntity = none) ∧
    (World.run World.empty exampleOps = some worldExample ∧
      (worldExample.CreateView [0, 1]).bind View.EachEntity = some [(entA, [5, 6])]) := by
  decide

/-- C7 at its failing input, and its example. In `worldReadd`, reached by
`readdOps`, the handle `entA` is valid and `AddComponent` for component id 0 runs
out of range in the membership test of the emptied store. In the world of
`MySystem` the view over `Position` and `Size` has the position of `entA`, returns
both components, and each `Each` overload fires exactly once. -/
theorem addComponent_out_of_range_after_remove :
    (World.run World.empty readdOps = some worldReadd ∧
      worldReadd.IsEntityValid entA = true ∧ worldReadd.AddComponent 0 entA 6 = none) ∧
    (World.run World.empty systemOps = some worldSystem ∧
      (worldSystem.CreateView [0, 1]).bind (fun view => view.HasComponent 0 entA) = some true ∧
      (worldSystem.CreateView [0, 1]).bind (fun view => view.GetComponent 0 entA) =
        some (some (Component.position 20 13)) ∧
      (worldSystem.CreateView [0, 1]).bind (fun view => view.GetComponent 1 entA) =
        some (some (Component.size 100 300)) ∧
      (worldSystem.CreateView [0, 1]).bind View.Each =
        some [[Component.position 20 13, Component.size 100 300]] ∧
      (worldSystem.CreateView [0, 1]).bind View.EachEntity =
        some [(entA, [Component.position 20 13, Component.size 100 300])] ∧
      entA.GetID = 0) := by
  decide

/-- `ClearEntities` does not touch the generation table, so validity is kept. -/
theorem World.clearEntities_isEntityValid {V : Type} (w : World V) (e : Entity) :
    w.ClearEntities.IsEntityValid e = w.IsEntityValid e := rfl

/-- C8 at its failing input. In `worldBeforeClear`, reached by `clearOps`, the
valid handle `entA` has a component of type 0. After `ClearEntities` the handle
is still valid, and in the view over component id 0 both `HasComponent` and
`GetComponent` read `entities[0]` of the emptied vector, out of range, instead of
reporting absence. -/
theorem getComponent_out_of_range_after_clear :
    World.run World.empty clearOps = some worldBeforeClear ∧
    worldBeforeClear.IsEntityValid entA = true ∧
    worldBeforeClear.ClearEntities = worldCleared ∧
    worldCleared.IsEntityValid entA = true ∧
    worldCleared.CreateView [0] = some viewCleared ∧
    viewCleared.HasComponent 0 entA = none ∧ viewCleared.GetComponent 0 entA = none := by
  decide

/-! ## C9: what `ClearEntities` leaves behind -/

/-- C9 as stated fails. After `ClearEntities` on `worldBeforeClear` the store of
component id 0 still has the one-element sparse array `[0]`. -/
theorem clearEntities_sparse_counterexample :
    World.run World.empty clearOps = some worldBeforeClear ∧
    mapFind worldBeforeClear.ClearEntities.sparseSetMap 0 =
      some { sparse := [0], entities := [], components := [] } ∧
    ([0] : List Nat) ≠ [] := by
  decide

/-- C9, amended. `ClearEntities` leaves every component store with an empty dense
entity array and an empty dense component array, keeps every store registered
under its id with its sparse array unchanged, and leaves the generation table and
the dead-id pool as they were. -/
theorem clearEntities_keeps_sparse {V : Type} (w : World V) :
    (∀ p : Nat × SparseSet V, p ∈ w.ClearEntities.sparseSetMap →
      p.2.entities = [] ∧ p.2.components = []) ∧
    w.ClearEntities.sparseSetMap.map (fun p => (p.1, p.2.sparse)) =
      w.sparseSetMap.map (fun p => (p.1, p.2.sparse)) ∧
    (∀ c : Nat, mapFind w.ClearEntities.sparseSetMap c =
      (mapFind w.sparseSetMap c).map SparseSet.Clear) ∧
    w.ClearEntities.generations = w.generations ∧ w.ClearEntities.deadIDs = w.deadIDs := by
  refine ⟨?_, ?_, ?_, rfl, rfl⟩
  · intro p hp
    simp only [World.ClearEntities, List.mem_map] at hp
    obtain ⟨q, _, hq⟩ := hp
    subst hq
    exact ⟨rfl, rfl⟩
  · simp [World.ClearEntities, SparseSet.Clear, Function.comp_def]
  · intro c
    simp only [World.ClearEntities]
    induction w.sparseSetMap with
    | nil => rfl
    | cons p m ih =>
      obtain ⟨k, s⟩ := p
      by_cases hk : k = c
      · simp [mapFind, hk]
      · simp [mapFind, hk, ih]

/-- C9 amended, at `worldBeforeClear`: the cleared store of component id 0 has
empty dense arrays and keeps its sparse array. -/
theorem clearEntities_keeps_sparse_witness :
    ((0, storeOneRemoved) ∈ worldBeforeClear.ClearEntities.sparseSetMap) ∧
    (storeOneRemoved.entities = [] ∧ storeOneRemoved.components = []) ∧
    mapFind worldBeforeClear.ClearEntities.sparseSetMap 0 =
      (mapFind worldBeforeClear.sparseSetMap 0).map SparseSet.Clear :=
  have h := clearEntities_keeps_sparse worldBeforeClear
  ⟨by decide, h.1 (0, storeOneRemoved) (by decide), h.2.2.1 0⟩

/-! ## C10: despawning twice -/

/-- C10. Despawning `e` twice gives the same result as despawning it once; when
the first call yields `w1`, the handle is invalid in `w1` and the second call
returns `w1` itself, so generation table, dead-id pool and stores are unchanged. -/
theorem despawn_twice_eq_once {V : Type} (w : World V) (e : Entity) :
    (w.DespawnEntity e).bind (fun w1 => w1.DespawnEntity e) = w.DespawnEntity e ∧
    ∀ w1 : World V, w.DespawnEntity e = some w1 →
      w1.IsEntityValid e = false ∧ w1.DespawnEntity e = some w1 := by
  have key : ∀ w1 : World V, w.DespawnEntity e = some w1 →
      w1.IsEntityValid e = false ∧ w1.DespawnEntity e = some w1 := by
    intro w1 h
    have hinv : w1.IsEntityValid e = false := by
      cases hv : w.IsEntityValid e with
      | false =>
        rw [World.despawn_of_invalid hv] at h
        cases h
        exact hv
      | true => exact World.not_valid_of_stale (World.stale_after_despawn hv h)
    exact ⟨hinv, World.despawn_of_invalid hinv⟩
  refine ⟨?_, key⟩
  cases h : w.DespawnEntity e with
  | none => rfl
  | some w1 => exact (key w1 h).2

/-- C10 at `worldTwo`: the first despawn of `entA` yields `worldTwoDead`, the
second one returns `worldTwoDead` unchanged. -/
theorem despawn_twice_eq_once_witness :
    worldTwo.DespawnEntity entA = some worldTwoDead ∧
    worldTwoDead.IsEntityValid entA = false ∧
    worldTwoDead.DespawnEntity entA = some worldTwoDead :=
  ⟨by decide, (despawn_twice_eq_once worldTwo entA).2 worldTwoDead (by decide)⟩

/-! ## C11, C12, C13, C15: registry calls on reachable worlds -/

namespace World

variable {V : Type}

theorem addComponent_of_invalid {w : World V} {e : Entity} (c : Nat) (v : V)
    (h : w.IsEntityValid e = false) : w.AddComponent c e v = some w := by
  simp [AddComponent, h]

theorem removeComponent_of_invalid {w : World V} {e : Entity} (c : Nat)
    (h : w.IsEntityValid e = false) : w.RemoveComponent c e = some w := by
  simp [RemoveComponent, h]

theorem removeComponent_of_no_store {w : World V} (e : Entity) {c : Nat}
    (h : mapFind w.sparseSetMap c = none) : w.RemoveComponent c e = some w := by
  unfold RemoveComponent
  split
  · rfl
  · simp [h]

theorem removeComponent_of_absent {w : World V} {e : Entity} {c : Nat} {s : SparseSet V}
    (h : mapFind w.sparseSetMap c = some s) (hc : s.Contains e = some false) :
    w.RemoveComponent c e = some w := by
  unfold RemoveComponent
  split
  · rfl
  · simp [h, hc]

end World

/-- C11 at its failing input. In `worldReadd`, reached by `readdOps`, the handle
`entA` is valid and the store of component id 0 does not hold it, yet
`RemoveComponent` for id 0 reads `entities[0]` of the empty vector in the
membership test, out of range, instead of leaving the world unchanged. -/
theorem removeComponent_out_of_range_when_absent :
    World.run World.empty readdOps = some worldReadd ∧
    worldReadd.IsEntityValid entA = true ∧
    mapFind worldReadd.sparseSetMap 0 = some storeOneRemoved ∧
    entA ∉ storeOneRemoved.entities ∧
    worldReadd.RemoveComponent 0 entA = none := by
  decide

/-- C12 at its failing input. In `worldEach`, reached by `eachOps`, the handle
`entB` is valid and store 0 does not hold it, yet `AddComponent` for id 0 reads
`entities[1]` of a one-element vector in the membership test, out of range,
instead of appending `entB` with its value. -/
theorem addComponent_out_of_range_when_absent :
    World.run World.empty eachOps = some worldEach ∧
    worldEach.IsEntityValid entB = true ∧
    mapFind worldEach.sparseSetMap 0 = some storeStale ∧
    entB ∉ storeStale.entities ∧
    worldEach.AddComponent 0 entB 8 = none := by
  decide

/-- C13 at its failing input. In `worldReadd`, reached by `readdOps`, the handle
`entA` is valid, yet `DespawnEntity` reads `entities[0]` of the empty vector of
store 0 in the membership test of its loop, out of range, instead of completing
the despawn. -/
theorem despawn_out_of_range_on_reachable_world :
    World.run World.empty readdOps = some worldReadd ∧
    worldReadd.IsEntityValid entA = true ∧
    worldReadd.DespawnEntity entA = none := by
  decide

/-- C15 at its failing input. `respawnOps` passes only the handle `entA` returned
by the first spawn and reaches `worldRespawnDead`; the next spawn returns `entA1`
and gives `worldRespawn`. For this valid handle, `AddComponent` and
`RemoveComponent` for component id 0 and `HasComponent` and `GetComponent` of the
view over id 0 all evaluate `entities[sparse[0]]` with `sparse[0] = 0` on the
empty dense array. -/
theorem contains_index_out_of_range_on_reachable_world :
    (World.empty : World Nat).SpawnEntity = some (entA, worldOne) ∧
    World.run World.empty respawnOps = some worldRespawnDead ∧
    worldRespawnDead.SpawnEntity = some (entA1, worldRespawn) ∧
    worldRespawn.IsEntityValid entA1 = true ∧
    mapFind worldRespawn.sparseSetMap 0 = some storeOneRemoved ∧
    storeOneRemoved.sparse[entA1.GetID]? = some 0 ∧
    storeOneRemoved.entities.length = 0 ∧
    worldRespawn.AddComponent 0 entA1 6 = none ∧
    worldRespawn.RemoveComponent 0 entA1 = none ∧
    (worldRespawn.CreateView [0]).bind (fun view => view.HasComponent 0 entA1) = none ∧
    (worldRespawn.CreateView [0]).bind (fun view => view.GetComponent 0 entA1) = none := by
  decide

/-! ## C18: the entities `Each` visits -/

namespace View

variable {V : Type}

theorem eachLoop_eq_map_eachEntityLoop (view : View V) (entities : List Entity) :
    view.eachLoop entities = (view.eachEntityLoop entities).map (List.map Prod.snd) := by
  induction entities with
  | nil => rfl
  | cons e rest ih =>
    simp only [eachLoop, eachEntityLoop, ih]
    cases view.hasAll e view.boundTypes with
    | none => rfl
    | some b =>
      cases b with
      | false => rfl
      | true =>
        cases view.getAll e view.boundTypes with
        | none => rfl
        | some args =>
          cases view.eachEntityLoop rest with
          | none => rfl
          | some calls => rfl

/-- The two `Each` overloads make the same calls: the overload without the entity
argument receives the component tuples of the other one, in the same order. -/
theorem each_eq_map_eachEntity (view : View V) :
    view.Each = view.EachEntity.map (List.map Prod.snd) := by
  unfold Each EachEntity
  cases view.smallestEntityVector with
  | none => rfl
  | some entities => exact eachLoop_eq_map_eachEntityLoop view entities

end View

/-- C18 at its failing input. In `worldOrder`, reached by `orderOps`, the view
over component ids 1 and 0 is driven by store 1 with dense array `entB`, `entC`.
`entB` is in both stores and `entC` is not in the dense array of store 0, so the
filtered array is `entB` alone; but the membership test of `entC` in store 0
reads `entities[2]` of a two-element vector, and both `Each` overloads run out
of range. -/
theorem each_order_out_of_range_on_reachable_world :
    World.run World.empty orderOps = some worldOrder ∧
    worldOrder.CreateView [1, 0] = some viewOrder ∧
    [entB, entC].filter (fun e => decide (e ∈ storeOrderB.entities ∧ e ∈ storeOrderA.entities))
      = [entB] ∧
    viewOrder.hasAll entB viewOrder.boundTypes = some true ∧
    viewOrder.hasAll entC viewOrder.boundTypes = none ∧
    viewOrder.Each = none ∧ viewOrder.EachEntity = none := by
  decide

/-! ## C14: what `SpawnEntity` returns -/

namespace World

variable {V : Type}

theorem poolOk_empty : (World.empty : World V).PoolOk := by
  intro id h
  simp [World.empty] at h

theorem step_poolOk {w w1 : World V} {op : Op V} (hw : w.PoolOk) (h : w.step op = some w1) :
    w1.PoolOk := by
  cases op with
  | spawn =>
    simp only [step, Option.map_eq_some', Prod.exists, exists_eq_right] at h
    obtain ⟨e, he⟩ := h
    rcases (spawn_spec he).2 with ⟨hd, hg, _⟩ | ⟨_, hd, _, _⟩
    · intro id hid
      rw [hg]
      exact hw id (by rw [hd]; exact List.mem_append_left _ hid)
    · intro id hid
      rw [hd] at hid
      cases hid
  | despawn e =>
    simp only [step] at h
    cases hv : w.IsEntityValid e with
    | false =>
      rw [despawn_of_invalid hv] at h
      cases h
      exact hw
    | true =>
      obtain ⟨hd, hg, _⟩ := despawn_of_valid hv h
      have hlt : e.id < w.generations.length :=
        (List.getElem?_eq_some_iff.mp ((isEntityValid_iff w e).mp hv)).1
      intro id hid
      rw [hg, List.length_set]
      rw [hd, List.mem_append, List.mem_singleton] at hid
      rcases hid with hid | hid
      · exact hw id hid
      · rw [hid]; exact hlt
  | add c e v =>
    obtain ⟨hg, hd⟩ := addComponent_frame h
    intro id hid
    rw [hg]
    exact hw id (by rw [← hd]; exact hid)
  | remove c e =>
    obtain ⟨hg, hd⟩ := removeComponent_frame h
    intro id hid
    rw [hg]
    exact hw id (by rw [← hd]; exact hid)
  | clear =>
    simp only [step, Option.some.injEq] at h
    subst h
    exact hw

theorem run_poolOk {ops : List (Op V)} : ∀ {w w1 : World V}, w.PoolOk → w.run ops = some w1 →
    w1.PoolOk := by
  induction ops with
  | nil =>
    intro w w1 hw h
    simp only [run, Option.some.injEq] at h
    subst h
    exact hw
  | cons op ops ih =>
    intro w w1 hw h
    simp only [run] at h
    cases hs : w.step op with
    | none => simp [hs] at h
    | some w2 =>
      simp only [hs] at h
      exact ih (step_poolOk hw hs) h

theorem Reachable.poolOk {w : World V} (h : w.Reachable) : w.PoolOk := by
  obtain ⟨ops, hops⟩ := h
  exact run_poolOk poolOk_empty hops

end World

/-- C14. (1) With an empty pool `SpawnEntity` returns the handle with id
`generations.size()` and generation 0, appends one generation-0 slot and changes
neither pool nor stores. (2) With a non-empty pool whose ids index the generation
table, it removes the last id from the pool, returns it paired with its current
generation and changes neither table nor stores. (3) Every reachable world has a
pool whose ids index the table. (4) The returned handle is valid in the resulting
world. (5) The first spawn on the default-constructed world has id 0. -/
theorem spawn_fresh_or_recycled {V : Type} (w : World V) :
    (w.deadIDs = [] →
      w.SpawnEntity = some ({ id := w.generations.length, gen := 0 },
        { deadIDs := [], generations := w.generations ++ [0],
          sparseSetMap := w.sparseSetMap })) ∧
    (w.deadIDs ≠ [] → w.PoolOk →
      ∃ (ids : List Nat) (id g : Nat), w.deadIDs = ids ++ [id] ∧
        w.generations[id]? = some g ∧
        w.SpawnEntity = some ({ id := id, gen := g },
          { deadIDs := ids, generations := w.generations,
            sparseSetMap := w.sparseSetMap })) ∧
    (w.Reachable → w.PoolOk) ∧
    (∀ (e : Entity) (w1 : World V), w.SpawnEntity = some (e, w1) →
      w1.IsEntityValid e = true) ∧
    (∃ w1 : World V, (World.empty : World V).SpawnEntity = some ({ id := 0, gen := 0 }, w1)) := by
  refine ⟨?_, ?_, World.Reachable.poolOk, fun e w1 h => World.spawn_valid h, ?_⟩
  · intro hd
    simp [World.SpawnEntity, hd]
  · intro hne hpool
    have hlast : w.deadIDs = w.deadIDs.dropLast ++ [w.deadIDs.getLast hne] :=
      (List.dropLast_append_getLast hne).symm
    have hlt : w.deadIDs.getLast hne < w.generations.length :=
      hpool _ (List.getLast_mem hne)
    refine ⟨w.deadIDs.dropLast, w.deadIDs.getLast hne, w.generations[w.deadIDs.getLast hne],
      hlast, List.getElem?_eq_getElem hlt, ?_⟩
    have hlen : ¬ (w.deadIDs.length = 0) := by
      intro h0
      exact hne (List.length_eq_zero.mp h0)
    simp [World.SpawnEntity, hlen, List.getLast?_eq_getLast _ hne, List.getElem?_eq_getElem hlt]
  · exact ⟨_, rfl⟩

/-- C14 at the default-constructed world (empty pool) and at the reachable world
`worldPool` (pool `[0, 1]`). -/
theorem spawn_fresh_or_recycled_witness :
    ((World.empty : World Nat).deadIDs = [] ∧ worldPool.deadIDs ≠ [] ∧ worldPool.PoolOk ∧
      worldPool.SpawnEntity = some (entB1, worldPoolSpawned)) ∧
    (World.empty : World Nat).SpawnEntity = some ({ id := 0, gen := 0 },
      { deadIDs := [], generations := [0], sparseSetMap := [] }) ∧
    (∃ (ids : List Nat) (id g : Nat), worldPool.deadIDs = ids ++ [id] ∧
      worldPool.generations[id]? = some g ∧
      worldPool.SpawnEntity = some ({ id := id, gen := g },
        { deadIDs := ids, generations := worldPool.generations,
          sparseSetMap := worldPool.sparseSetMap })) ∧
    worldPoolSpawned.IsEntityValid entB1 = true :=
  ⟨⟨rfl, by decide, by decide, by decide⟩,
   (spawn_fresh_or_recycled (World.empty : World Nat)).1 rfl,
   (spawn_fresh_or_recycled worldPool).2.1 (by decide) (by decide),
   (spawn_fresh_or_recycled worldPool).2.2.2.1 entB1 worldPoolSpawned (by decide)⟩

/-! ## C16: the sparse-set invariant -/

theorem SparseSet.inv_clear {C : Type} (s : SparseSet C) : s.Clear.Inv := by
  rw [SparseSet.inv_iff]
  exact ⟨rfl, fun p e h => by simp [SparseSet.Clear] at h⟩

/-- The store predicate and what the operations keep of it. `Inv` says that
`entities` and `components` have equal length and that every dense position `p`
holds an entity `e` with `e.id < len(sparse)` and `sparse[e.id] = p`. It holds
for the empty store; it is preserved by `Add(e, v)` when no stored entity has
the id of `e`, by `Remove(e)` when `e` is contained (and `Remove` returns), and
by `Clear`; under it `Contains(e)` returns true only for an entity of the dense
array, and returns true for each of them. For an entity outside the dense array
the test does not always return false: see
`contains_out_of_range_under_invariant`. -/
theorem sparse_set_invariant_preserved {C : Type} :
    (∀ s : SparseSet C, s.Inv ↔
      (s.entities.length = s.components.length ∧
        ∀ (p : Nat) (e : Entity), s.entities[p]? = some e →
          e.id < s.sparse.length ∧ s.sparse[e.id]? = some p)) ∧
    (SparseSet.empty : SparseSet C).Inv ∧
    (∀ (s : SparseSet C) (e : Entity) (v : C), s.Inv →
      (∀ x : Entity, x ∈ s.entities → x.id ≠ e.id) → (s.Add e v).Inv) ∧
    (∀ (s : SparseSet C) (e : Entity), s.Inv → s.Contains e = some true →
      ∃ s1 : SparseSet C, s.Remove e = some s1 ∧ s1.Inv) ∧
    (∀ s : SparseSet C, s.Inv → s.Clear.Inv) ∧
    (∀ (s : SparseSet C) (e : Entity), s.Inv →
      (s.Contains e = some true ↔ e ∈ s.entities)) := by
  refine ⟨?_, SparseSet.inv_empty, ?_, ?_, ?_, ?_⟩
  · intro s
    rw [SparseSet.inv_iff]
    constructor
    · rintro ⟨hlen, h⟩
      exact ⟨hlen, fun p e he =>
        ⟨(List.getElem?_eq_some_iff.mp (h p e he)).1, h p e he⟩⟩
    · rintro ⟨hlen, h⟩
      exact ⟨hlen, fun p e he => (h p e he).2⟩
  · intro s e v hinv hfresh
    exact (hinv.add_facts v hfresh).1
  · intro s e hinv hc
    have hm := (hinv.contains_iff_mem e).mp hc
    obtain ⟨s1, hr⟩ := hinv.remove_isSome hm
    exact ⟨s1, hr, (hinv.remove_facts hm hr).1⟩
  · intro s _
    exact SparseSet.inv_clear s
  · intro s e hinv
    exact hinv.contains_iff_mem e

/-- The preservation results at `storeThree`: adding `entD`, removing `entA` and
clearing keep the invariant, and `entB` is contained. -/
theorem sparse_set_invariant_preserved_witness :
    (storeThree.Inv ∧ (∀ x : Entity, x ∈ storeThree.entities → x.id ≠ entD.id) ∧
      storeThree.Contains entA = some true) ∧
    (storeThree.Add entD 11).Inv ∧
    (∃ s1 : SparseSet Nat, storeThree.Remove entA = some s1 ∧ s1.Inv) ∧
    storeThree.Clear.Inv ∧
    (storeThree.Contains entB = some true ↔ entB ∈ storeThree.entities) :=
  have h := @sparse_set_invariant_preserved Nat
  ⟨⟨by decide, by decide, by decide⟩,
   h.2.2.1 storeThree entD 11 (by decide) (by decide),
   h.2.2.2.1 storeThree entA (by decide) (by decide),
   h.2.2.2.2.1 storeThree (by decide),
   h.2.2.2.2.2 storeThree entB (by decide)⟩

/-- C16 at its failing input. The store `storeThree` satisfies the predicate and
`Clear` gives `storeThreeCleared`, which satisfies it too; `entB` does not occur
in its dense entity array, yet `Contains(entB)` reads `entities[sparse[1]]` =
`entities[1]` of the empty vector, out of range, instead of returning false. The
same happens in `storeOneRemoved`, which `Remove(entA)` produces from `storeOne`:
the predicate holds, `entA` does not occur, and `Contains(entA)` reads
`entities[0]` of the empty vector. -/
theorem contains_out_of_range_under_invariant :
    (storeThree.Inv ∧ storeThree.Clear = storeThreeCleared ∧ storeThreeCleared.Inv ∧
      entB ∉ storeThreeCleared.entities ∧
      storeThreeCleared.sparse[entB.GetID]? = some 1 ∧
      storeThreeCleared.entities[1]? = none ∧
      storeThreeCleared.Contains entB = none ∧
      storeThreeCleared.Contains entB ≠ some false) ∧
    (storeOne.Inv ∧ storeOne.Remove entA = some storeOneRemoved ∧ storeOneRemoved.Inv ∧
      entA ∉ storeOneRemoved.entities ∧ storeOneRemoved.Contains entA ≠ some false) := by
  decide

/-! ## C17: the drive store of a view -/

namespace View

variable {V : Type}

/-- The constructor's fold started from a chosen vector `v`: either `v` is kept
and no later store is smaller, or the result is the dense array of the first
later store of minimal size, which is smaller than `v`. -/
theorem foldl_pickSmallest (t : List (Nat × SparseSet V)) : ∀ v : List Entity,
    ∃ r : List Entity, t.foldl (fun acc p => pickSmallest acc p.2) (some v) = some r ∧
      ((r = v ∧ ∀ q : Nat × SparseSet V, q ∈ t → v.length ≤ q.2.entities.length) ∨
       (∃ (i : Nat) (p : Nat × SparseSet V), t[i]? = some p ∧ r = p.2.entities ∧
          p.2.entities.length < v.length ∧
          (∀ q : Nat × SparseSet V, q ∈ t → p.2.entities.length ≤ q.2.entities.length) ∧
          ∀ (j : Nat) (q : Nat × SparseSet V), j < i → t[j]? = some q →
            p.2.entities.length < q.2.entities.length)) := by
  induction t with
  | nil =>
    intro v
    exact ⟨v, rfl, Or.inl ⟨rfl, fun q hq => by cases hq⟩⟩
  | cons a t ih =>
    intro v
    simp only [List.foldl_cons, pickSmallest, SparseSet.GetEntities]
    by_cases hlt : a.2.entities.length < v.length
    · rw [if_pos hlt]
      obtain ⟨r, hr, hcase⟩ := ih a.2.entities
      refine ⟨r, hr, Or.inr ?_⟩
      rcases hcase with ⟨hrv, hall⟩ | ⟨i, p, hp, hrp, hpl, hall, hfirst⟩
      · refine ⟨0, a, List.getElem?_cons_zero, hrv, hlt, ?_, ?_⟩
        · intro q hq
          rcases List.mem_cons.mp hq with hq | hq
          · rw [hq]
          · exact hall q hq
        · intro j q hj
          omega
      · refine ⟨i + 1, p, by simpa using hp, hrp, by omega, ?_, ?_⟩
        · intro q hq
          rcases List.mem_cons.mp hq with hq | hq
          · rw [hq]; omega
          · exact hall q hq
        · intro j q hj hq
          cases j with
          | zero =>
            simp only [List.getElem?_cons_zero, Option.some.injEq] at hq
            rw [← hq]; exact hpl
          | succ j =>
            simp only [List.getElem?_cons_succ] at hq
            exact hfirst j q (by omega) hq
    · rw [if_neg hlt]
      obtain ⟨r, hr, hcase⟩ := ih v
      refine ⟨r, hr, ?_⟩
      rcases hcase with ⟨hrv, hall⟩ | ⟨i, p, hp, hrp, hpl, hall, hfirst⟩
      · refine Or.inl ⟨hrv, ?_⟩
        intro q hq
        rcases List.mem_cons.mp hq with hq | hq
        · rw [hq]; omega
        · exact hall q hq
      · refine Or.inr ⟨i + 1, p, by simpa using hp, hrp, hpl, ?_, ?_⟩
        · intro q hq
          rcases List.mem_cons.mp hq with hq | hq
          · rw [hq]; omega
          · exact hall q hq
        · intro j q hj hq
          cases j with
          | zero =>
            simp only [List.getElem?_cons_zero, Option.some.injEq] at hq
            rw [← hq]; omega
          | succ j =>
            simp only [List.getElem?_cons_succ] at hq
            exact hfirst j q (by omega) hq

end View

/-- C17. For a non-empty list of bound stores the constructor of `View` sets the
drive vector to the dense entity array of a store at some position `i` of the
list; no bound store is smaller than that store, and every store before
position `i` is strictly larger, so among the stores of minimal size the first in
the order of the requested types is selected. -/
theorem view_drive_is_first_smallest {V : Type} (t : List (Nat × SparseSet V)) (hne : t ≠ []) :
    ∃ (i : Nat) (p : Nat × SparseSet V), t[i]? = some p ∧
      (View.construct t).smallestEntityVector = some p.2.GetEntities ∧
      (∀ q : Nat × SparseSet V, q ∈ t → p.2.entities.length ≤ q.2.entities.length) ∧
      ∀ (j : Nat) (q : Nat × SparseSet V), j < i → t[j]? = some q →
        p.2.entities.length < q.2.entities.length := by
  cases t with
  | nil => exact absurd rfl hne
  | cons a t =>
    obtain ⟨r, hr, hcase⟩ := View.foldl_pickSmallest t a.2.entities
    have hcons : (View.construct (a :: t)).smallestEntityVector = some r := by
      simp only [View.construct, List.foldl_cons, View.pickSmallest, SparseSet.GetEntities]
      exact hr
    rcases hcase with ⟨hrv, hall⟩ | ⟨i, p, hp, hrp, hpl, hall, hfirst⟩
    · refine ⟨0, a, List.getElem?_cons_zero, by rw [hcons, hrv]; rfl, ?_, ?_⟩
      · intro q hq
        rcases List.mem_cons.mp hq with hq | hq
        · rw [hq]
        · exact hall q hq
      · intro j q hj
        omega
    · refine ⟨i + 1, p, by simpa using hp, by rw [hcons, hrp]; rfl, ?_, ?_⟩
      · intro q hq
        rcases List.mem_cons.mp hq with hq | hq
        · rw [hq]; omega
        · exact hall q hq
      · intro j q hj hq
        cases j with
        | zero =>
          simp only [List.getElem?_cons_zero, Option.some.injEq] at hq
          rw [← hq]; exact hpl
        | succ j =>
          simp only [List.getElem?_cons_succ] at hq
          exact hfirst j q (by omega) hq

/-- C17 at `tupleSizes` (store sizes 2, 1, 3, 1): the drive vector is the dense
array of the store at position 1, the first of the two stores of size 1. -/
theorem view_drive_is_first_smallest_witness :
    tupleSizes ≠ [] ∧
    (View.construct tupleSizes).smallestEntityVector = some storeOne.GetEntities ∧
    tupleSizes[1]? = some (1, storeOne) ∧
    ∃ (i : Nat) (p : Nat × SparseSet Nat), tupleSizes[i]? = some p ∧
      (View.construct tupleSizes).smallestEntityVector = some p.2.GetEntities ∧
      (∀ q : Nat × SparseSet Nat, q ∈ tupleSizes →
        p.2.entities.length ≤ q.2.entities.length) ∧
      ∀ (j : Nat) (q : Nat × SparseSet Nat), j < i → tupleSizes[j]? = some q →
        p.2.entities.length < q.2.entities.length :=
  ⟨by decide, by decide, by decide, view_drive_is_first_smallest tupleSizes (by decide)⟩

/-! ## The registry's stores: membership lemmas -/

theorem mapFind_mem {V : Type} {m : List (Nat × SparseSet V)} {c : Nat} {s : SparseSet V}
    (h : mapFind m c = some s) : (c, s) ∈ m := by
  induction m with
  | nil => simp [mapFind] at h
  | cons p m ih =>
    obtain ⟨k, s0⟩ := p
    by_cases hk : k = c
    · simp only [mapFind, hk, if_true, Option.some.injEq] at h
      subst h hk
      exact List.mem_cons_self _ _
    · simp only [mapFind, hk, if_false] at h
      exact List.mem_cons_of_mem _ (ih h)

theorem mem_mapStore {V : Type} {m : List (Nat × SparseSet V)} {c : Nat} {s1 : SparseSet V}
    {p : Nat × SparseSet V} (h : p ∈ mapStore m c s1) : p ∈ m ∨ p = (c, s1) := by
  induction m with
  | nil => simp [mapStore] at h
  | cons a m ih =>
    obtain ⟨k, s0⟩ := a
    by_cases hk : k = c
    · simp only [mapStore, hk, if_true, List.mem_cons] at h
      rcases h with h | h
      · exact Or.inr h
      · exact Or.inl (List.mem_cons_of_mem _ h)
    · simp only [mapStore, hk, if_false, List.mem_cons] at h
      rcases h with h | h
      · exact Or.inl (by rw [h]; exact List.mem_cons_self _ _)
      · rcases ih h with h1 | h1
        · exact Or.inl (List.mem_cons_of_mem _ h1)
        · exact Or.inr h1

theorem mem_mapForEach {V : Type} {f : SparseSet V → Option (SparseSet V)} :
    ∀ {m m1 : List (Nat × SparseSet V)}, mapForEach f m = some m1 →
      ∀ p1 : Nat × SparseSet V, p1 ∈ m1 →
        ∃ p : Nat × SparseSet V, p ∈ m ∧ p.1 = p1.1 ∧ f p.2 = some p1.2 := by
  intro m
  induction m with
  | nil =>
    intro m1 h p1 hp1
    simp only [mapForEach, Option.some.injEq] at h
    subst h
    cases hp1
  | cons a m ih =>
    intro m1 h p1 hp1
    obtain ⟨k, s⟩ := a
    simp only [mapForEach] at h
    cases hf : f s with
    | none => simp [hf] at h
    | some s1 =>
      cases hr : mapForEach f m with
      | none => simp [hf, hr] at h
      | some r =>
        simp only [hf, hr, Option.some.injEq] at h
        subst h
        rcases List.mem_cons.mp hp1 with hp | hp
        · subst hp
          exact ⟨(k, s), List.mem_cons_self _ _, rfl, hf⟩
        · obtain ⟨p, hp, hk, hfp⟩ := ih hr p1 hp
          exact ⟨p, List.mem_cons_of_mem _ hp, hk, hfp⟩

namespace SparseSet

variable {C : Type}

theorem Inv.not_mem_of_contains_false {s : SparseSet C} (h : s.Inv) {e : Entity}
    (hc : s.Contains e = some false) : e ∉ s.entities := by
  intro hm
  rw [(h.contains_iff_mem e).mpr hm] at hc
  cases hc

theorem Inv.assign_facts {s s1 : SparseSet C} (h : s.Inv) {e : Entity} {v : C}
    (ha : s.Assign e v = some s1) :
    s1.Inv ∧ s1.entities = s.entities ∧ s1.sparse = s.sparse := by
  unfold Assign at ha
  cases hp : s.sparse[e.GetID]? with
  | none => simp [hp] at ha
  | some p =>
    simp only [hp] at ha
    by_cases hlt : p < s.components.length
    · rw [if_pos hlt] at ha
      cases ha
      refine ⟨?_, rfl, rfl⟩
      rw [inv_iff]
      exact ⟨by simp [h.length_eq], fun q x hx => h.sparse_at hx⟩
    · rw [if_neg hlt] at ha
      cases ha

end SparseSet

namespace World

variable {V : Type}

theorem despawnFrom_facts {s s1 : SparseSet V} (h : s.Inv) {e : Entity}
    (hd : despawnFrom e s = some s1) :
    s1.Inv ∧ ∀ x : Entity, x ∈ s1.entities → x ∈ s.entities ∧ x ≠ e := by
  unfold despawnFrom at hd
  cases hc : s.Contains e with
  | none => simp [hc] at hd
  | some b =>
    cases b with
    | true =>
      simp only [hc] at hd
      have hm := (h.contains_iff_mem e).mp hc
      obtain ⟨hinv1, hmem, _, _⟩ := h.remove_facts hm hd
      exact ⟨hinv1, fun x hx => (hmem x).mp hx⟩
    | false =>
      simp only [hc, Option.some.injEq] at hd
      subst hd
      have hne := h.not_mem_of_contains_false hc
      exact ⟨h, fun x hx => ⟨hx, fun hxe => hne (hxe ▸ hx)⟩⟩

/-- What a completed `AddComponent` with a valid handle does: table and pool are
kept; the store `s0` of the component id, or a new empty store appended to the
map, is replaced by `s1`, which is `s0` with the value of `e` overwritten when
the membership test accepts `e`, and `s0.Add e v` when it rejects `e`. -/
theorem addComponent_spec {w w1 : World V} {c : Nat} {e : Entity} {v : V}
    (hv : w.IsEntityValid e = true) (h : w.AddComponent c e v = some w1) :
    w1.generations = w.generations ∧ w1.deadIDs = w.deadIDs ∧
    ∃ (s0 s1 : SparseSet V) (m : List (Nat × SparseSet V)),
      ((mapFind w.sparseSetMap c = some s0 ∧ m = w.sparseSetMap) ∨
       (mapFind w.sparseSetMap c = none ∧ s0 = SparseSet.empty ∧
          m = w.sparseSetMap ++ [(c, SparseSet.empty)])) ∧
      w1.sparseSetMap = mapStore m c s1 ∧
      ((s0.Contains e = some true ∧ s0.Assign e v = some s1) ∨
       (s0.Contains e = some false ∧ s1 = s0.Add e v)) := by
  refine ⟨(addComponent_frame h).1, (addComponent_frame h).2, ?_⟩
  simp only [AddComponent, hv, Bool.not_true, Bool.false_eq_true, if_false] at h
  cases hf : mapFind w.sparseSetMap c with
  | some s0 =>
    simp only [hf] at h
    cases hc : s0.Contains e with
    | none => simp [hc] at h
    | some b =>
      cases b with
      | true =>
        simp only [hc] at h
        cases ha : s0.Assign e v with
        | none => simp [ha] at h
        | some s1 =>
          simp only [ha, Option.some.injEq] at h
          subst h
          exact ⟨s0, s1, w.sparseSetMap, Or.inl ⟨rfl, rfl⟩, rfl, Or.inl ⟨hc, ha⟩⟩
      | false =>
        simp only [hc, Option.some.injEq] at h
        subst h
        exact ⟨s0, s0.Add e v, w.sparseSetMap, Or.inl ⟨rfl, rfl⟩, rfl, Or.inr ⟨hc, rfl⟩⟩
  | none =>
    simp only [hf] at h
    cases hc : (SparseSet.empty : SparseSet V).Contains e with
    | none => simp [hc] at h
    | some b =>
      cases b with
      | true =>
        simp only [hc] at h
        cases ha : (SparseSet.empty : SparseSet V).Assign e v with
        | none => simp [ha] at h
        | some s1 =>
          simp only [ha, Option.some.injEq] at h
          subst h
          exact ⟨SparseSet.empty, s1, _, Or.inr ⟨rfl, rfl, rfl⟩, rfl, Or.inl ⟨hc, ha⟩⟩
      | false =>
        simp only [hc, Option.some.injEq] at h
        subst h
        exact ⟨SparseSet.empty, _, _, Or.inr ⟨rfl, rfl, rfl⟩, rfl, Or.inr ⟨hc, rfl⟩⟩

/-- What a completed `RemoveComponent` with a valid handle does: nothing, or the
store of the component id accepts `e` in its membership test and is replaced by
the result of `Remove`. -/
theorem removeComponent_spec {w w1 : World V} {c : Nat} {e : Entity}
    (hv : w.IsEntityValid e = true) (h : w.RemoveComponent c e = some w1) :
    w1 = w ∨
    ∃ s0 s1 : SparseSet V, mapFind w.sparseSetMap c = some s0 ∧
      s0.Contains e = some true ∧ s0.Remove e = some s1 ∧
      w1 = { deadIDs := w.deadIDs, generations := w.generations,
             sparseSetMap := mapStore w.sparseSetMap c s1 } := by
  simp only [RemoveComponent, hv, Bool.not_true, Bool.false_eq_true, if_false] at h
  cases hf : mapFind w.sparseSetMap c with
  | none =>
    simp only [hf, Option.some.injEq] at h
    exact Or.inl h.symm
  | some s0 =>
    simp only [hf] at h
    cases hc : s0.Contains e with
    | none => simp [hc] at h
    | some b =>
      cases b with
      | true =>
        simp only [hc] at h
        cases hr : s0.Remove e with
        | none => simp [hr] at h
        | some s1 =>
          simp only [hr, Option.some.injEq] at h
          exact Or.inr ⟨s0, s1, rfl, hc, hr, h.symm⟩
      | false =>
        simp only [hc, Option.some.injEq] at h
        exact Or.inl h.symm

end World

/-! ## The registry invariant: stores hold valid handles only -/

namespace World

variable {V : Type}

theorem isEntityValid_congr {w w1 : World V} (h : w1.generations = w.generations)
    (x : Entity) : w1.IsEntityValid x = w.IsEntityValid x := by
  unfold IsEntityValid
  rw [h]

theorem spawn_keeps_valid {w w1 : World V} {e x : Entity} (h : w.SpawnEntity = some (e, w1))
    (hx : w.IsEntityValid x = true) : w1.IsEntityValid x = true := by
  rw [isEntityValid_iff] at hx ⊢
  rcases (spawn_spec h).2 with ⟨_, hg, _⟩ | ⟨_, _, _, hg⟩
  · rw [hg]; exact hx
  · rw [hg, List.getElem?_append_left (List.getElem?_eq_some_iff.mp hx).1]
    exact hx

theorem despawn_keeps_valid {w w1 : World V} {e x : Entity} (hv : w.IsEntityValid e = true)
    (h : w.DespawnEntity e = some w1) (hx : w.IsEntityValid x = true) (hne : x ≠ e) :
    w1.IsEntityValid x = true := by
  have he := (isEntityValid_iff w e).mp hv
  rw [isEntityValid_iff] at hx ⊢
  have hid : e.id ≠ x.id := by
    intro hid
    rw [hid, hx] at he
    apply hne
    cases x
    cases e
    simp only [Entity.mk.injEq]
    exact ⟨hid.symm, Option.some.inj he⟩
  rw [(despawn_of_valid hv h).2.1, List.getElem?_set_ne hid]
  exact hx

theorem storesOk_empty : (World.empty : World V).StoresOk := by
  intro p hp
  simp [World.empty] at hp

theorem despawn_storesOk {w w1 : World V} {e : Entity} (hw : w.StoresOk)
    (h : w.DespawnEntity e = some w1) : w1.StoresOk := by
  cases hv : w.IsEntityValid e with
  | false =>
    rw [despawn_of_invalid hv] at h
    cases h
    exact hw
  | true =>
    intro p1 hp1
    obtain ⟨p, hp, _, hf⟩ := mem_mapForEach (despawn_of_valid hv h).2.2 p1 hp1
    obtain ⟨hinv1, hsub⟩ := despawnFrom_facts (hw p hp).1 hf
    refine ⟨hinv1, ?_⟩
    intro x hx
    obtain ⟨hxs, hxe⟩ := hsub x hx
    exact despawn_keeps_valid hv h ((hw p hp).2 x hxs) hxe

theorem addComponent_storesOk {w w1 : World V} {c : Nat} {e : Entity} {v : V}
    (hw : w.StoresOk) (h : w.AddComponent c e v = some w1) : w1.StoresOk := by
  cases hv : w.IsEntityValid e with
  | false =>
    rw [addComponent_of_invalid c v hv] at h
    cases h
    exact hw
  | true =>
    obtain ⟨hg, _, s0, s1, m, hm, hmap, hs1⟩ := addComponent_spec hv h
    have hs0 : s0.Inv ∧ ∀ x : Entity, x ∈ s0.entities → w.IsEntityValid x = true := by
      rcases hm with ⟨hf, _⟩ | ⟨_, hs0, _⟩
      · exact hw (c, s0) (mapFind_mem hf)
      · rw [hs0]
        exact ⟨SparseSet.inv_empty, fun x hx => by simp [SparseSet.empty] at hx⟩
    have hmok : ∀ p : Nat × SparseSet V, p ∈ m →
        p.2.Inv ∧ ∀ x : Entity, x ∈ p.2.entities → w.IsEntityValid x = true := by
      intro p hp
      rcases hm with ⟨_, hmeq⟩ | ⟨_, _, hmeq⟩
      · rw [hmeq] at hp; exact hw p hp
      · rw [hmeq, List.mem_append, List.mem_singleton] at hp
        rcases hp with hp | hp
        · exact hw p hp
        · rw [hp]
          exact ⟨SparseSet.inv_empty, fun x hx => by simp [SparseSet.empty] at hx⟩
    have hs1ok : s1.Inv ∧ ∀ x : Entity, x ∈ s1.entities → w.IsEntityValid x = true := by
      rcases hs1 with ⟨_, ha⟩ | ⟨hc, hadd⟩
      · obtain ⟨hinv1, hents, _⟩ := hs0.1.assign_facts ha
        exact ⟨hinv1, fun x hx => hs0.2 x (by rw [← hents]; exact hx)⟩
      · have hfresh : ∀ x : Entity, x ∈ s0.entities → x.id ≠ e.id := by
          intro x hx hid
          have hxv := (isEntityValid_iff w x).mp (hs0.2 x hx)
          have hev := (isEntityValid_iff w e).mp hv
          rw [hid, hev] at hxv
          have hxe : x = e := by
            cases x
            cases e
            simp only [Entity.mk.injEq]
            exact ⟨hid, (Option.some.inj hxv).symm⟩
          exact hs0.1.not_mem_of_contains_false hc (hxe ▸ hx)
        rw [hadd]
        refine ⟨(hs0.1.add_facts v hfresh).1, ?_⟩
        intro x hx
        rw [SparseSet.add_entities, List.mem_append, List.mem_singleton] at hx
        rcases hx with hx | hx
        · exact hs0.2 x hx
        · rw [hx]; exact hv
    intro p hp
    rw [hmap] at hp
    have hp1 : p.2.Inv ∧ ∀ x : Entity, x ∈ p.2.entities → w.IsEntityValid x = true := by
      rcases mem_mapStore hp with hp | hp
      · exact hmok p hp
      · rw [hp]; exact hs1ok
    exact ⟨hp1.1, fun x hx => by rw [isEntityValid_congr hg]; exact hp1.2 x hx⟩

theorem removeComponent_storesOk {w w1 : World V} {c : Nat} {e : Entity}
    (hw : w.StoresOk) (h : w.RemoveComponent c e = some w1) : w1.StoresOk := by
  cases hv : w.IsEntityValid e with
  | false =>
    rw [removeComponent_of_invalid c hv] at h
    cases h
    exact hw
  | true =>
    rcases removeComponent_spec hv h with h1 | ⟨s0, s1, hf, hc, hr, h1⟩
    · rw [h1]; exact hw
    · have hs0 := hw (c, s0) (mapFind_mem hf)
      have hm := (hs0.1.contains_iff_mem e).mp hc
      obtain ⟨hinv1, hmem, _, _⟩ := hs0.1.remove_facts hm hr
      intro p hp
      rw [h1] at hp
      have hp1 : p.2.Inv ∧ ∀ x : Entity, x ∈ p.2.entities → w.IsEntityValid x = true := by
        rcases mem_mapStore hp with hp | hp
        · exact hw p hp
        · rw [hp]
          exact ⟨hinv1, fun x hx => hs0.2 x ((hmem x).mp hx).1⟩
      exact ⟨hp1.1, fun x hx => by
        rw [isEntityValid_congr (by rw [h1])]; exact hp1.2 x hx⟩

theorem step_storesOk {w w1 : World V} {op : Op V} (hw : w.StoresOk)
    (h : w.step op = some w1) : w1.StoresOk := by
  cases op with
  | spawn =>
    simp only [step, Option.map_eq_some', Prod.exists, exists_eq_right] at h
    obtain ⟨e, he⟩ := h
    intro p hp
    rw [(spawn_spec he).1] at hp
    exact ⟨(hw p hp).1, fun x hx => spawn_keeps_valid he ((hw p hp).2 x hx)⟩
  | despawn e => exact despawn_storesOk hw h
  | add c e v => exact addComponent_storesOk hw h
  | remove c e => exact removeComponent_storesOk hw h
  | clear =>
    simp only [step, Option.some.injEq] at h
    subst h
    intro p hp
    simp only [ClearEntities, List.mem_map] at hp
    obtain ⟨q, _, hq⟩ := hp
    subst hq
    exact ⟨SparseSet.inv_clear q.2, fun x hx => by simp [SparseSet.Clear] at hx⟩

theorem run_storesOk {ops : List (Op V)} : ∀ {w w1 : World V}, w.StoresOk →
    w.run ops = some w1 → w1.StoresOk := by
  induction ops with
  | nil =>
    intro w w1 hw h
    simp only [run, Option.some.injEq] at h
    subst h
    exact hw
  | cons op ops ih =>
    intro w w1 hw h
    simp only [run] at h
    cases hs : w.step op with
    | none => simp [hs] at h
    | some w2 =>
      simp only [hs] at h
      exact ih (step_storesOk hw hs) h

theorem Reachable.storesOk {w : World V} (h : w.Reachable) : w.StoresOk := by
  obtain ⟨ops, hops⟩ := h
  exact run_storesOk storesOk_empty hops

theorem run_append {ops1 : List (Op V)} : ∀ {w w1 w2 : World V} {ops2 : List (Op V)},
    w.run ops1 = some w1 → w1.run ops2 = some w2 → w.run (ops1 ++ ops2) = some w2 := by
  induction ops1 with
  | nil =>
    intro w w1 w2 ops2 h1 h2
    simp only [run, Option.some.injEq] at h1
    subst h1
    exact h2
  | cons op ops1 ih =>
    intro w w1 w2 ops2 h1 h2
    simp only [run, List.cons_append] at h1 ⊢
    cases hs : w.step op with
    | none => simp [hs] at h1
    | some w3 =>
      simp only [hs] at h1 ⊢
      exact ih h1 h2

theorem Reachable.run {w w1 : World V} {ops : List (Op V)} (h : w.Reachable)
    (hr : w.run ops = some w1) : w1.Reachable := by
  obtain ⟨ops0, h0⟩ := h
  exact ⟨ops0 ++ ops, run_append h0 hr⟩

end World

/-! ## C19: stores hold valid handles only -/

/-- C19. In a world reached from the default-constructed world by registry calls:
(1) every entity in the dense array of a store is valid; (2) a handle despawned
in that world is in no store of any world reached by further calls; (3) two
dense positions of a store that hold entities with the same id are the same
position. -/
theorem stored_entities_valid {V : Type} (w : World V) (hreach : w.Reachable) :
    (∀ p : Nat × SparseSet V, p ∈ w.sparseSetMap →
      ∀ x : Entity, x ∈ p.2.entities → w.IsEntityValid x = true) ∧
    (∀ (e : Entity) (w1 w2 : World V) (ops : List (Op V)), w.IsEntityValid e = true →
      w.DespawnEntity e = some w1 → w1.run ops = some w2 →
      ∀ p : Nat × SparseSet V, p ∈ w2.sparseSetMap → e ∉ p.2.entities) ∧
    (∀ p : Nat × SparseSet V, p ∈ w.sparseSetMap →
      ∀ (i j : Nat) (x y : Entity), p.2.entities[i]? = some x → p.2.entities[j]? = some y →
        x.id = y.id → i = j) := by
  have hok := hreach.storesOk
  refine ⟨fun p hp => (hok p hp).2, ?_, ?_⟩
  · intro e w1 w2 ops hv hd hrun p hp hmem
    have hstep : w.run [Op.despawn e] = some w1 := by
      simp [World.run, World.step, hd]
    have hok2 := ((hreach.run hstep).run hrun).storesOk
    have hstale := (World.stale_after_despawn hv hd).mono (World.run_genLe hrun)
    have hvalid := (hok2 p hp).2 e hmem
    rw [World.not_valid_of_stale hstale] at hvalid
    cases hvalid
  · intro p hp i j x y hx hy hid
    exact (hok p hp).1.pos_unique hx hy hid

/-- C19 at `worldExample`: its stores hold valid handles; after `entB` is
despawned and id 1 recycled as `entB1`, store 1 holds `entB1` and not `entB`. -/
theorem stored_entities_valid_witness :
    (World.run World.empty exampleOps = some worldExample ∧
      (1, storeRecycled) ∈ worldExampleLater.sparseSetMap ∧
      (0, storeStale) ∈ worldExampleDead.sparseSetMap ∧
      worldExample.IsEntityValid entB = true ∧
      worldExample.DespawnEntity entB = some worldExampleDead ∧
      worldExampleDead.run recycleOps = some worldExampleLater ∧
      entB1 ∈ storeRecycled.entities) ∧
    (∀ p : Nat × SparseSet Nat, p ∈ worldExample.sparseSetMap →
      ∀ x : Entity, x ∈ p.2.entities → worldExample.IsEntityValid x = true) ∧
    entB ∉ storeRecycled.entities ∧
    (∀ (i j : Nat) (x y : Entity), storeStale.entities[i]? = some x →
      storeStale.entities[j]? = some y → x.id = y.id → i = j) :=
  have hreach : worldExample.Reachable := ⟨exampleOps, by decide⟩
  have hdead : worldExampleDead.Reachable :=
    ⟨exampleOps ++ [Op.despawn entB], by decide⟩
  ⟨⟨by decide, by decide, by decide, by decide, by decide, by decide, by decide⟩,
   (stored_entities_valid worldExample hreach).1,
   (stored_entities_valid worldExample hreach).2.1 entB worldExampleDead worldExampleLater
     recycleOps (by decide) (by decide) (by decide) (1, storeRecycled) (by decide),
   (stored_entities_valid worldExampleDead hdead).2.2 (0, storeStale) (by decide)⟩

/-! ## Runs that pass returned handles only -/

namespace World

variable {V : Type}

theorem stepLog_step {w w1 : World V} {r r1 : List Entity} {op : Op V}
    (h : w.stepLog r op = some (w1, r1)) : w.step op = some w1 := by
  cases op with
  | spawn =>
    simp only [stepLog, Option.map_eq_some', Prod.mk.injEq] at h
    obtain ⟨a, ha, hw, _⟩ := h
    simp only [step, Option.map_eq_some']
    exact ⟨a, ha, hw⟩
  | despawn e =>
    simp only [stepLog, Option.map_eq_some', Prod.mk.injEq] at h
    obtain ⟨a, ha, hw, _⟩ := h
    rw [← hw]; exact ha
  | add c e v =>
    simp only [stepLog, Option.map_eq_some', Prod.mk.injEq] at h
    obtain ⟨a, ha, hw, _⟩ := h
    rw [← hw]; exact ha
  | remove c e =>
    simp only [stepLog, Option.map_eq_some', Prod.mk.injEq] at h
    obtain ⟨a, ha, hw, _⟩ := h
    rw [← hw]; exact ha
  | clear =>
    simp only [stepLog, Option.some.injEq, Prod.mk.injEq] at h
    simp only [step, Option.some.injEq]
    exact h.1

theorem logOk_empty : LogOk (World.empty : World V) [] where
  stores := storesOk_empty
  pool := poolOk_empty
  poolNodup := List.nodup_nil
  logNodup := List.nodup_nil
  logLe := fun h hh => by cases hh
  logDead := fun h hh => by cases hh
  stored := fun p hp => by simp [World.empty] at hp

/-- A call that keeps table and pool keeps the invariant when its stores hold
logged handles only. -/
theorem LogOk.frame {w w1 : World V} {r : List Entity} (h : LogOk w r)
    (hg : w1.generations = w.generations) (hd : w1.deadIDs = w.deadIDs)
    (hs : w1.StoresOk)
    (hst : ∀ p : Nat × SparseSet V, p ∈ w1.sparseSetMap →
      ∀ x : Entity, x ∈ p.2.entities → x ∈ r) : LogOk w1 r where
  stores := hs
  pool := by
    intro id hid
    rw [hg]
    exact h.pool id (by rw [← hd]; exact hid)
  poolNodup := by rw [hd]; exact h.poolNodup
  logNodup := h.logNodup
  logLe := by rw [hg]; exact h.logLe
  logDead := by
    intro x hx hid
    rw [isEntityValid_congr hg]
    exact h.logDead x hx (by rw [← hd]; exact hid)
  stored := hst

theorem LogOk.spawn {w w1 : World V} {r : List Entity} {e : Entity} (h : LogOk w r)
    (hs : w.SpawnEntity = some (e, w1)) : e ∉ r ∧ LogOk w1 (r ++ [e]) := by
  have hstep : w.step Op.spawn = some w1 := by simp [step, hs]
  have hstores := step_storesOk h.stores hstep
  have hpool := step_poolOk h.pool hstep
  obtain ⟨hmap, hcase⟩ := spawn_spec hs
  rcases hcase with ⟨hd, hg, hx⟩ | ⟨hd, hd1, he, hg⟩
  · -- the id comes from the pool
    have hlast : e.id ∈ w.deadIDs := by rw [hd]; simp
    have hfresh : e ∉ r := by
      intro hmem
      have := h.logDead e hmem hlast
      rw [(isEntityValid_iff w e).mpr hx] at this
      cases this
    have hnd : (w1.deadIDs ++ [e.id]).Nodup := by rw [← hd]; exact h.poolNodup
    have hnotin : e.id ∉ w1.deadIDs := by
      intro hin
      exact (List.nodup_append.mp hnd).2.2 hin (List.mem_singleton_self _)
    refine ⟨hfresh, ?_⟩
    exact
      { stores := hstores
        pool := hpool
        poolNodup := (List.nodup_append.mp hnd).1
        logNodup := by
          rw [List.nodup_append]
          refine ⟨h.logNodup, List.nodup_singleton _, ?_⟩
          intro a ha hb
          rw [List.mem_singleton] at hb
          exact hfresh (hb ▸ ha)
        logLe := by
          intro x hxr
          rw [hg]
          rcases List.mem_append.mp hxr with hxr | hxr
          · exact h.logLe x hxr
          · rw [List.mem_singleton] at hxr
            rw [hxr]
            exact ⟨e.gen, hx, le_rfl⟩
        logDead := by
          intro x hxr hid
          rw [isEntityValid_congr hg]
          rcases List.mem_append.mp hxr with hxr | hxr
          · exact h.logDead x hxr (by rw [hd]; exact List.mem_append_left _ hid)
          · rw [List.mem_singleton] at hxr
            rw [hxr] at hid
            exact absurd hid hnotin
        stored := by
          intro p hp x hxp
          rw [hmap] at hp
          exact List.mem_append_left _ (h.stored p hp x hxp) }
  · -- a new slot is appended
    have hfresh : e ∉ r := by
      intro hmem
      obtain ⟨g, hgx, _⟩ := h.logLe e hmem
      have hlt : e.id < w.generations.length := (List.getElem?_eq_some_iff.mp hgx).1
      rw [he] at hlt
      simp at hlt
    refine ⟨hfresh, ?_⟩
    exact
      { stores := hstores
        pool := hpool
        poolNodup := by rw [hd1]; exact List.nodup_nil
        logNodup := by
          rw [List.nodup_append]
          refine ⟨h.logNodup, List.nodup_singleton _, ?_⟩
          intro a ha hb
          rw [List.mem_singleton] at hb
          exact hfresh (hb ▸ ha)
        logLe := by
          intro x hxr
          rw [hg]
          rcases List.mem_append.mp hxr with hxr | hxr
          · obtain ⟨g, hgx, hle⟩ := h.logLe x hxr
            refine ⟨g, ?_, hle⟩
            rw [List.getElem?_append_left (List.getElem?_eq_some_iff.mp hgx).1]
            exact hgx
          · rw [List.mem_singleton] at hxr
            rw [hxr, he]
            exact ⟨0, by simp, le_rfl⟩
        logDead := by
          intro x _ hid
          rw [hd1] at hid
          cases hid
        stored := by
          intro p hp x hxp
          rw [hmap] at hp
          exact List.mem_append_left _ (h.stored p hp x hxp) }

theorem LogOk.despawn {w w1 : World V} {r : List Entity} {e : Entity} (h : LogOk w r)
    (her : e ∈ r) (hd : w.DespawnEntity e = some w1) : LogOk w1 r := by
  cases hv : w.IsEntityValid e with
  | false =>
    rw [despawn_of_invalid hv] at hd
    cases hd
    exact h
  | true =>
    have hstep : w.step (Op.despawn e) = some w1 := hd
    obtain ⟨hdead, hgen, hmap⟩ := despawn_of_valid hv hd
    have hge := (isEntityValid_iff w e).mp hv
    have hlt : e.id < w.generations.length := (List.getElem?_eq_some_iff.mp hge).1
    have hnotin : e.id ∉ w.deadIDs := by
      intro hin
      have := h.logDead e her hin
      rw [hv] at this
      cases this
    exact
      { stores := step_storesOk h.stores hstep
        pool := step_poolOk h.pool hstep
        poolNodup := by
          rw [hdead, List.nodup_append]
          refine ⟨h.poolNodup, List.nodup_singleton _, ?_⟩
          intro a ha hb
          rw [List.mem_singleton] at hb
          exact hnotin (hb ▸ ha)
        logNodup := h.logNodup
        logLe := by
          intro x hxr
          obtain ⟨g, hgx, hle⟩ := h.logLe x hxr
          rw [hgen]
          by_cases hid : e.id = x.id
          · rw [← hid, hge] at hgx
            have hg1 : e.gen = g := Option.some.inj hgx
            refine ⟨e.gen + 1, ?_, by omega⟩
            rw [← hid, List.getElem?_set_self hlt]
          · exact ⟨g, by rw [List.getElem?_set_ne hid]; exact hgx, hle⟩
        logDead := by
          intro x hxr hin
          cases hxv : w1.IsEntityValid x with
          | false => rfl
          | true =>
            rw [isEntityValid_iff, hgen] at hxv
            obtain ⟨g, hgx, hle⟩ := h.logLe x hxr
            by_cases hid : e.id = x.id
            · rw [← hid, List.getElem?_set_self hlt] at hxv
              rw [← hid, hge] at hgx
              have h1 : e.gen + 1 = x.gen := Option.some.inj hxv
              have h2 : e.gen = g := Option.some.inj hgx
              omega
            · rw [List.getElem?_set_ne hid] at hxv
              rw [hdead, List.mem_append, List.mem_singleton] at hin
              rcases hin with hin | hin
              · have := h.logDead x hxr hin
                rw [(isEntityValid_iff w x).mpr hxv] at this
                cases this
              · exact absurd hin.symm hid
        stored := by
          intro p1 hp1 x hx
          obtain ⟨p, hp, _, hf⟩ := mem_mapForEach hmap p1 hp1
          exact h.stored p hp x ((despawnFrom_facts (h.stores p hp).1 hf).2 x hx).1 }

theorem LogOk.addComponent {w w1 : World V} {r : List Entity} {c : Nat} {e : Entity} {v : V}
    (h : LogOk w r) (her : e ∈ r) (ha : w.AddComponent c e v = some w1) : LogOk w1 r := by
  cases hv : w.IsEntityValid e with
  | false =>
    rw [addComponent_of_invalid c v hv] at ha
    cases ha
    exact h
  | true =>
    obtain ⟨hg, hd, s0, s1, m, hm, hmap, hs1⟩ := addComponent_spec hv ha
    refine h.frame hg hd (addComponent_storesOk h.stores ha) ?_
    have hs0 : s0.Inv ∧ ∀ x : Entity, x ∈ s0.entities → x ∈ r := by
      rcases hm with ⟨hf, _⟩ | ⟨_, hs0, _⟩
      · exact ⟨(h.stores _ (mapFind_mem hf)).1, h.stored _ (mapFind_mem hf)⟩
      · rw [hs0]
        exact ⟨SparseSet.inv_empty, fun x hx => by simp [SparseSet.empty] at hx⟩
    intro p hp x hx
    rw [hmap] at hp
    rcases mem_mapStore hp with hp | hp
    · rcases hm with ⟨_, hmeq⟩ | ⟨_, _, hmeq⟩
      · rw [hmeq] at hp; exact h.stored p hp x hx
      · rw [hmeq, List.mem_append, List.mem_singleton] at hp
        rcases hp with hp | hp
        · exact h.stored p hp x hx
        · rw [hp] at hx
          simp [SparseSet.empty] at hx
    · rw [hp] at hx
      rcases hs1 with ⟨_, hassign⟩ | ⟨_, hadd⟩
      · rw [(hs0.1.assign_facts hassign).2.1] at hx
        exact hs0.2 x hx
      · rw [hadd, SparseSet.add_entities, List.mem_append, List.mem_singleton] at hx
        rcases hx with hx | hx
        · exact hs0.2 x hx
        · rw [hx]; exact her

theorem LogOk.removeComponent {w w1 : World V} {r : List Entity} {c : Nat} {e : Entity}
    (h : LogOk w r) (hr : w.RemoveComponent c e = some w1) : LogOk w1 r := by
  cases hv : w.IsEntityValid e with
  | false =>
    rw [removeComponent_of_invalid c hv] at hr
    cases hr
    exact h
  | true =>
    have hs := removeComponent_storesOk h.stores hr
    rcases removeComponent_spec hv hr with h1 | ⟨s0, s1, hf, hc, hrem, h1⟩
    · rw [h1]; exact h
    · refine h.frame (by rw [h1]) (by rw [h1]) hs ?_
      have hs0 := h.stores _ (mapFind_mem hf)
      have hm := (hs0.1.contains_iff_mem e).mp hc
      obtain ⟨_, hmem, _, _⟩ := hs0.1.remove_facts hm hrem
      intro p hp x hx
      rw [h1] at hp
      rcases mem_mapStore hp with hp | hp
      · exact h.stored p hp x hx
      · rw [hp] at hx
        exact h.stored _ (mapFind_mem hf) x ((hmem x).mp hx).1

theorem LogOk.stepLog {w w1 : World V} {r r1 : List Entity} {op : Op V} (h : LogOk w r)
    (harg : ∀ e : Entity, op.entityArg = some e → e ∈ r)
    (hs : w.stepLog r op = some (w1, r1)) : LogOk w1 r1 := by
  cases op with
  | spawn =>
    simp only [World.stepLog, Option.map_eq_some', Prod.mk.injEq] at hs
    obtain ⟨a, ha, hw, hr⟩ := hs
    obtain ⟨e, w2⟩ := a
    simp only at hw hr
    subst hw hr
    exact (h.spawn ha).2
  | despawn e =>
    simp only [World.stepLog, Option.map_eq_some', Prod.mk.injEq] at hs
    obtain ⟨a, ha, hw, hr⟩ := hs
    subst hw hr
    exact h.despawn (harg e rfl) ha
  | add c e v =>
    simp only [World.stepLog, Option.map_eq_some', Prod.mk.injEq] at hs
    obtain ⟨a, ha, hw, hr⟩ := hs
    subst hw hr
    exact h.addComponent (harg e rfl) ha
  | remove c e =>
    simp only [World.stepLog, Option.map_eq_some', Prod.mk.injEq] at hs
    obtain ⟨a, ha, hw, hr⟩ := hs
    subst hw hr
    exact h.removeComponent ha
  | clear =>
    simp only [World.stepLog, Option.some.injEq, Prod.mk.injEq] at hs
    obtain ⟨hw, hr⟩ := hs
    subst hw hr
    refine h.frame rfl rfl (@step_storesOk V w _ Op.clear h.stores rfl) ?_
    intro p hp x hx
    simp only [ClearEntities, List.mem_map] at hp
    obtain ⟨q, _, hq⟩ := hp
    subst hq
    simp [SparseSet.Clear] at hx

theorem LogOk.runLog {ops : List (Op V)} : ∀ {w w1 : World V} {r r1 : List Entity},
    LogOk w r → w.argsReturned r ops = true → w.runLog r ops = some (w1, r1) →
    LogOk w1 r1 := by
  induction ops with
  | nil =>
    intro w w1 r r1 h _ hrun
    simp only [World.runLog, Option.some.injEq, Prod.mk.injEq] at hrun
    obtain ⟨hw, hr⟩ := hrun
    subst hw hr
    exact h
  | cons op ops ih =>
    intro w w1 r r1 h hargs hrun
    simp only [World.runLog] at hrun
    simp only [World.argsReturned, Bool.and_eq_true] at hargs
    cases hs : w.stepLog r op with
    | none => simp [hs] at hrun
    | some a =>
      obtain ⟨w2, r2⟩ := a
      simp only [hs] at hrun hargs
      refine ih (h.stepLog ?_ hs) hargs.2 hrun
      intro e he
      have h1 := hargs.1
      rw [he] at h1
      simpa using h1

end World

/-! ## C20: the pool and the handles `SpawnEntity` returns -/

/-- `SpawnEntity` returns on every world whose pool ids index the generation
table. -/
theorem World.spawn_isSome_of_poolOk {V : Type} {w : World V} (hpool : w.PoolOk) :
    ∃ (e : Entity) (w1 : World V), w.SpawnEntity = some (e, w1) := by
  by_cases hd : w.deadIDs = []
  · exact ⟨{ id := w.generations.length, gen := 0 },
      { deadIDs := w.deadIDs, generations := w.generations ++ [0],
        sparseSetMap := w.sparseSetMap }, by simp [World.SpawnEntity, hd]⟩
  · have hlt : w.deadIDs.getLast hd < w.generations.length :=
      hpool _ (List.getLast_mem hd)
    have hlen : ¬ (w.deadIDs.length = 0) := fun h0 => hd (List.length_eq_zero.mp h0)
    exact ⟨{ id := w.deadIDs.getLast hd, gen := w.generations[w.deadIDs.getLast hd] },
      { deadIDs := w.deadIDs.dropLast, generations := w.generations,
        sparseSetMap := w.sparseSetMap }, by
      simp [World.SpawnEntity, hlen, List.getLast?_eq_getLast _ hd,
        List.getElem?_eq_getElem hlt]⟩

/-- C20. Let a run from the default-constructed world pass only handles that
`SpawnEntity` has returned before, and let it reach the world `w` with the log
`returned` of the handles returned so far. Then the dead-id pool of `w` holds no
id twice, the logged handles are pairwise different, and `SpawnEntity` on `w`
returns a handle that differs from every logged handle and is in the dense array
of no component store of the resulting world. -/
theorem spawned_handles_fresh {V : Type} (ops : List (Op V)) (w : World V)
    (returned : List Entity)
    (hrun : World.runLog World.empty [] ops = some (w, returned))
    (hargs : World.argsReturned (World.empty : World V) [] ops = true) :
    w.deadIDs.Nodup ∧ returned.Nodup ∧
    ∃ (e : Entity) (w1 : World V), w.SpawnEntity = some (e, w1) ∧ e ∉ returned ∧
      ∀ p : Nat × SparseSet V, p ∈ w1.sparseSetMap → e ∉ p.2.entities := by
  have hok := World.LogOk.runLog World.logOk_empty hargs hrun
  refine ⟨hok.poolNodup, hok.logNodup, ?_⟩
  have hsome := World.spawn_isSome_of_poolOk hok.pool
  obtain ⟨e, w1, hs⟩ := hsome
  obtain ⟨hfresh, hok1⟩ := hok.spawn hs
  refine ⟨e, w1, hs, hfresh, ?_⟩
  intro p hp hmem
  rw [(World.spawn_spec hs).1] at hp
  exact hfresh (hok.stored p hp e hmem)

/-- C20 at `scriptOps`: the run reaches `worldScript` with the log `entA`, `entB`
and the pool `[0]`; the next spawn returns `entA1`, which is neither logged nor
stored. -/
theorem spawned_handles_fresh_witness :
    (World.runLog World.empty [] scriptOps = some (worldScript, [entA, entB]) ∧
      World.argsReturned (World.empty : World Nat) [] scriptOps = true ∧
      worldScript.SpawnEntity = some (entA1, worldScriptSpawned)) ∧
    worldScript.deadIDs.Nodup ∧ [entA, entB].Nodup ∧
    ∃ (e : Entity) (w1 : World Nat), worldScript.SpawnEntity = some (e, w1) ∧
      e ∉ [entA, entB] ∧ ∀ p : Nat × SparseSet Nat, p ∈ w1.sparseSetMap → e ∉ p.2.entities :=
  ⟨⟨by decide, by decide, by decide⟩,
   spawned_handles_fresh scriptOps worldScript [entA, entB] (by decide) (by decide)⟩

end ECS
